import Mathlib

/-!
Verification of the snapshot-reconciliation core of a trading dashboard.

The source program records point-in-time snapshots of a trading account and
infers position lifecycles by comparing consecutive snapshots.  We embed the
core functions (`get_closed_positions`, `calculate_stats`, the regime split of
`ui_closed_positions`, and `ui_pnl_stats`) shallowly: Python dicts become
insertion-ordered association lists, Python's stable `sorted` becomes a stable
insertion sort, floats become rationals, SQL `NULL` becomes `Option`, and
timestamps become natural numbers with calendar dates obtained by dividing by
86400 (seconds per day).
-/

set_option maxHeartbeats 1000000

namespace TradingDashboard

abbrev Time := Nat

/-- Calendar date of a timestamp (days since the epoch), modelling `.date()`. -/
def dateOf (t : Time) : Nat := t / 86400

/-- One fetched row of the reconciliation query: a snapshot id and time joined
with one open-position row (`s.id, s.created_at, op.symbol, op.side,
op.entry_price, op.mark_price, op.pnl_usd, op.leverage`). -/
structure Row where
  snap_id : Nat
  created_at : Time
  symbol : String
  side : String
  entry_price : Option ℚ
  mark_price : Option ℚ
  pnl_usd : Option ℚ
  leverage : Option String
deriving DecidableEq

/-- The per-position record stored in `snapshots_map[snap_id]['positions']`,
with missing numeric fields already defaulted to `0`. -/
structure PosData where
  symbol : String
  side : String
  entry_price : ℚ
  mark_price : ℚ
  pnl_usd : ℚ
  leverage : Option String
deriving DecidableEq

/-- The `ClosedPosition` response model (fields used by the reconciler). -/
structure ClosedPosition where
  symbol : String
  side : String
  entry_price : ℚ
  exit_price : ℚ
  pnl_usd : ℚ
  opened_at : Time
  closed_at : Time
  leverage : Option String
deriving DecidableEq

/-- A `(timestamp, balance)` point of the balance series (`BalancePoint`). -/
structure BalancePoint where
  timestamp : Time
  balance_usd : ℚ
deriving DecidableEq

/- ### Insertion-ordered dictionaries

Python dicts iterate in insertion order; assigning to an existing key updates
the value in place, assigning a fresh key appends at the end. -/

def dictLookup {κ α : Type} [DecidableEq κ] (k : κ) : List (κ × α) → Option α
  | [] => none
  | kv :: rest => if kv.1 = k then some kv.2 else dictLookup k rest

def dictContains {κ α : Type} [DecidableEq κ] (k : κ) (d : List (κ × α)) : Bool :=
  (dictLookup k d).isSome

def dictInsert {κ α : Type} [DecidableEq κ] (k : κ) (v : α) : List (κ × α) → List (κ × α)
  | [] => [(k, v)]
  | kv :: rest => if kv.1 = k then (k, v) :: rest else kv :: dictInsert k v rest

def dictErase {κ α : Type} [DecidableEq κ] (k : κ) : List (κ × α) → List (κ × α)
  | [] => []
  | kv :: rest => if kv.1 = k then dictErase k rest else kv :: dictErase k rest

/- ### Stable sorting

Python's `sorted`/`list.sort` are stable; we model them by a stable insertion
sort: each element is inserted after every already-placed element that must
precede it (in particular after equals, preserving the original order). -/

def insertByLe {α : Type} (le : α → α → Bool) (x : α) : List α → List α
  | [] => [x]
  | y :: ys => if le y x then y :: insertByLe le x ys else x :: y :: ys

def stableSortBy {α : Type} (le : α → α → Bool) (l : List α) : List α :=
  l.foldl (fun acc x => insertByLe le x acc) []

/- ### Building `snapshots_map` -/

/-- The value stored in `snapshots_map`: `{'created_at': ..., 'positions': {...}}`. -/
structure SnapEntry where
  created_at : Time
  positions : List (String × PosData)
deriving DecidableEq

/-- `pos_key = f"{symbol}_{side}"`. -/
def posKey (symbol side : String) : String := symbol ++ "_" ++ side

/-- Conversion of a fetched row into the stored position record, with
`float(x) if x is not None else 0` modelled by `Option.getD _ 0`. -/
def rowPosData (r : Row) : PosData :=
  { symbol := r.symbol
    side := r.side
    entry_price := r.entry_price.getD 0
    mark_price := r.mark_price.getD 0
    pnl_usd := r.pnl_usd.getD 0
    leverage := r.leverage }

/-- Processing one fetched row into `snapshots_map`: create the snapshot entry
if absent, then store the position record under its `pos_key`. -/
def insertRow (m : List (Nat × SnapEntry)) (r : Row) : List (Nat × SnapEntry) :=
  let m1 := if dictContains r.snap_id m then m
            else dictInsert r.snap_id ⟨r.created_at, []⟩ m
  match dictLookup r.snap_id m1 with
  | some e =>
      dictInsert r.snap_id
        ⟨e.created_at, dictInsert (posKey r.symbol r.side) (rowPosData r) e.positions⟩ m1
  | none => m1

/-- `snapshots_map` built from all fetched rows. -/
def buildSnapshotsMap (rows : List Row) : List (Nat × SnapEntry) :=
  rows.foldl insertRow []

/-- `sorted_snap_ids = sorted(snapshots_map.keys(), key=lambda k: created_at)`,
carried together with the entries they index. -/
def sortedSnaps (rows : List Row) : List (Nat × SnapEntry) :=
  stableSortBy (fun a b => decide (a.2.created_at ≤ b.2.created_at)) (buildSnapshotsMap rows)

/- ### The reconciliation loop -/

/-- Step 1 of each loop iteration: record the start time of every position key
not already tracked. -/
def registerPositions (curr : SnapEntry) (start : List (String × Time)) :
    List (String × Time) :=
  curr.positions.foldl
    (fun st kv => if dictContains kv.1 st then st else dictInsert kv.1 curr.created_at st) start

/-- The `ClosedPosition` constructed for a vanished record. -/
def mkClosed (pd : PosData) (opened_at closed_at : Time) : ClosedPosition :=
  { symbol := pd.symbol
    side := pd.side
    entry_price := pd.entry_price
    exit_price := pd.mark_price
    pnl_usd := pd.pnl_usd
    opened_at := opened_at
    closed_at := closed_at
    leverage := pd.leverage }

/-- Step 2 body: one iteration of `for pos_key, pos_data in curr_positions.items()`,
emitting a closure when the key is absent from the next snapshot and deleting
the tracking entry. -/
def closeStep (nextPositions : List (String × PosData)) (currTime nextTime : Time)
    (acc : List ClosedPosition × List (String × Time)) (kv : String × PosData) :
    List ClosedPosition × List (String × Time) :=
  if dictContains kv.1 nextPositions then acc
  else
    (acc.1 ++ [mkClosed kv.2 ((dictLookup kv.1 acc.2).getD currTime) nextTime],
     dictErase kv.1 acc.2)

/-- The main loop over the snapshots in processing order, threading the
`position_start_times` tracking dict. -/
def reconcileLoop : List (Nat × SnapEntry) → List (String × Time) → List ClosedPosition
  | [], _ => []
  | (_, curr) :: rest, start =>
    let start1 := registerPositions curr start
    match rest with
    | [] => []
    | (nid, next) :: rest2 =>
      let res := curr.positions.foldl
        (closeStep next.positions curr.created_at next.created_at) ([], start1)
      res.1 ++ reconcileLoop ((nid, next) :: rest2) res.2

/-- `GET /closed-positions`: the full reconciliation, returning closures sorted
by `closed_at` descending (stably). -/
def get_closed_positions (rows : List Row) : List ClosedPosition :=
  stableSortBy (fun a b => decide (b.closed_at ≤ a.closed_at))
    (reconcileLoop (sortedSnaps rows) [])

/- ### The SQL fetch of the reconciliation query

`SELECT ... FROM account_snapshots s JOIN open_positions op ON s.id =
op.snapshot_id ORDER BY s.created_at ASC`.  An inner join: snapshots with no
position rows produce no fetched rows at all. -/

/-- A row of `account_snapshots` (fields used by the query). -/
structure SnapshotRow where
  id : Nat
  created_at : Time
deriving DecidableEq

/-- A row of `open_positions` (fields used by the query). -/
structure OpRow where
  snapshot_id : Nat
  symbol : String
  side : String
  entry_price : Option ℚ
  mark_price : Option ℚ
  pnl_usd : Option ℚ
  leverage : Option String
deriving DecidableEq

/-- The inner join ordered (stably) by `s.created_at` ascending. -/
def fetchJoinRows (snaps : List SnapshotRow) (ops : List OpRow) : List Row :=
  (stableSortBy (fun a b => decide (a.created_at ≤ b.created_at)) snaps).foldr
    (fun s acc =>
      ((ops.filter (fun o => o.snapshot_id == s.id)).map
        (fun o => ⟨s.id, s.created_at, o.symbol, o.side,
                   o.entry_price, o.mark_price, o.pnl_usd, o.leverage⟩)) ++ acc) []

/- ### Regime split and statistics -/

/-- `split_date = datetime(2025, 12, 5).date()`, as days since the epoch. -/
def split_date : Nat := 20427

/-- The current-regime membership test of `ui_closed_positions`:
`p.opened_at.date() >= split_date`. -/
def isCurrentRegime (p : ClosedPosition) : Bool :=
  decide (split_date ≤ dateOf p.opened_at)

/-- The regime split of `ui_closed_positions`: current positions
(`opened_at.date() >= split_date`) and archive positions (`< split_date`). -/
def ui_split_positions (positions : List ClosedPosition) :
    List ClosedPosition × List ClosedPosition :=
  (positions.filter (fun p => decide (split_date ≤ dateOf p.opened_at)),
   positions.filter (fun p => decide (dateOf p.opened_at < split_date)))

/-- The win/loss statistics record built by `calculate_stats`. -/
structure RegimeStats where
  total : Nat
  wins : Nat
  losses : Nat
  win_rate : ℚ
deriving DecidableEq

/-- Round-half-to-even on rationals, modelling Python's `round` to an integer. -/
def roundHalfEven (x : ℚ) : ℤ :=
  let f := ⌊x⌋
  let r := x - (f : ℚ)
  if r < 1/2 then f
  else if 1/2 < r then f + 1
  else if f % 2 = 0 then f else f + 1

/-- `round(x, 1)`: round to one decimal digit, ties to even. -/
def pyRound1 (x : ℚ) : ℚ := ((roundHalfEven (x * 10) : ℤ) : ℚ) / 10

/-- `calculate_stats` from `ui_closed_positions`. -/
def calculate_stats (pos_list : List ClosedPosition) : RegimeStats :=
  let total := pos_list.length
  let wins := (pos_list.filter (fun p => decide (0 < p.pnl_usd))).length
  let losses := total - wins
  let win_rate : ℚ := if 0 < total then (wins : ℚ) / (total : ℚ) * 100 else 0
  { total := total, wins := wins, losses := losses, win_rate := pyRound1 win_rate }

/- ### Balance PnL statistics (`ui_pnl_stats`) -/

/-- One balance-regime statistics block. -/
structure PnlStats where
  initial_balance : ℚ
  current_balance : ℚ
  pnl_usd : ℚ
  pnl_percent : ℚ
deriving DecidableEq

/-- The forced initial equity of the current regime (`1032.0` in the source). -/
def current_initial_override : ℚ := 1032

/-- `ui_pnl_stats`: `none` models the `has_data=False` early return for an
empty series; otherwise the pair of the optional archive stats and the current
stats. -/
def ui_pnl_stats (points : List BalancePoint) : Option (Option PnlStats × PnlStats) :=
  match points with
  | [] => none
  | _ :: _ =>
    let archive_points := points.filter (fun p => decide (dateOf p.timestamp < split_date))
    let archive_stats : Option PnlStats :=
      match archive_points.head?, archive_points.getLast? with
      | some p0, some pl =>
        let initial := p0.balance_usd
        let final := pl.balance_usd
        let pnl := final - initial
        some ⟨initial, final, pnl, if initial = 0 then 0 else pnl / initial * 100⟩
      | _, _ => none
    let current_points := points.filter (fun p => decide (split_date ≤ dateOf p.timestamp))
    let current_stats : PnlStats :=
      match current_points.getLast? with
      | some pl =>
        let initial := current_initial_override
        let final := pl.balance_usd
        let pnl := final - initial
        ⟨initial, final, pnl, if initial = 0 then 0 else pnl / initial * 100⟩
      | none =>
        ⟨current_initial_override, current_initial_override, 0, 0⟩
    some (archive_stats, current_stats)

/- ### Dictionary lemmas -/

theorem dictLookup_nil {κ α : Type} [DecidableEq κ] (k : κ) :
    dictLookup (α := α) k [] = none := rfl

theorem dictLookup_cons {κ α : Type} [DecidableEq κ] (k : κ) (kv : κ × α) (d : List (κ × α)) :
    dictLookup k (kv :: d) = if kv.1 = k then some kv.2 else dictLookup k d := rfl

theorem dictLookup_dictInsert {κ α : Type} [DecidableEq κ] (k k' : κ) (v : α)
    (d : List (κ × α)) :
    dictLookup k' (dictInsert k v d) = if k = k' then some v else dictLookup k' d := by
  induction d with
  | nil =>
    show dictLookup k' [(k, v)] = _
    rw [dictLookup_cons, dictLookup_nil]
  | cons kv rest ih =>
    show dictLookup k' (if kv.1 = k then (k, v) :: rest else kv :: dictInsert k v rest) = _
    by_cases h1 : kv.1 = k
    · rw [if_pos h1, dictLookup_cons]
      by_cases h2 : k = k'
      · rw [if_pos h2, if_pos h2]
      · rw [if_neg h2, if_neg h2, dictLookup_cons, if_neg (fun hc => h2 (h1 ▸ hc))]
    · rw [if_neg h1, dictLookup_cons, dictLookup_cons]
      by_cases h2 : kv.1 = k'
      · rw [if_pos h2, if_pos h2, if_neg (fun hc : k = k' => h1 (hc ▸ h2))]
      · rw [if_neg h2, if_neg h2, ih]

theorem dictLookup_dictErase {κ α : Type} [DecidableEq κ] (k k' : κ) (d : List (κ × α)) :
    dictLookup k' (dictErase k d) = if k = k' then none else dictLookup k' d := by
  induction d with
  | nil =>
    show dictLookup k' ([] : List (κ × α)) = _
    rw [dictLookup_nil]
    by_cases h : k = k'
    · rw [if_pos h]
    · rw [if_neg h]
  | cons kv rest ih =>
    show dictLookup k' (if kv.1 = k then dictErase k rest else kv :: dictErase k rest) = _
    by_cases h1 : kv.1 = k
    · rw [if_pos h1, ih]
      by_cases h2 : k = k'
      · rw [if_pos h2, if_pos h2]
      · rw [if_neg h2, if_neg h2, dictLookup_cons, if_neg (fun hc => h2 (h1 ▸ hc))]
    · rw [if_neg h1, dictLookup_cons]
      by_cases h2 : kv.1 = k'
      · rw [if_pos h2, if_neg (fun hc : k = k' => h1 (hc ▸ h2)), dictLookup_cons, if_pos h2]
      · rw [if_neg h2, ih]
        by_cases h3 : k = k'
        · rw [if_pos h3, if_pos h3]
        · rw [if_neg h3, if_neg h3, dictLookup_cons, if_neg h2]

theorem dictContains_false_iff {κ α : Type} [DecidableEq κ] (k : κ) (d : List (κ × α)) :
    dictContains k d = false ↔ dictLookup k d = none := by
  unfold dictContains
  cases dictLookup k d <;> simp

theorem dictContains_true_iff {κ α : Type} [DecidableEq κ] (k : κ) (d : List (κ × α)) :
    dictContains k d = true ↔ ∃ v, dictLookup k d = some v := by
  unfold dictContains
  cases dictLookup k d <;> simp

theorem dictInsert_of_not_contains {κ α : Type} [DecidableEq κ] (k : κ) (v : α)
    (d : List (κ × α)) (h : dictContains k d = false) :
    dictInsert k v d = d ++ [(k, v)] := by
  rw [dictContains_false_iff] at h
  induction d with
  | nil => rfl
  | cons kv rest ih =>
    rw [dictLookup_cons] at h
    by_cases h1 : kv.1 = k
    · rw [if_pos h1] at h
      exact absurd h (by simp)
    · rw [if_neg h1] at h
      show (if kv.1 = k then (k, v) :: rest else kv :: dictInsert k v rest) = _
      rw [if_neg h1, List.cons_append, ih h]

theorem keys_dictInsert_of_contains {κ α : Type} [DecidableEq κ] (k : κ) (v : α)
    (d : List (κ × α)) (h : dictContains k d = true) :
    (dictInsert k v d).map Prod.fst = d.map Prod.fst := by
  rw [dictContains_true_iff] at h
  obtain ⟨w, hw⟩ := h
  induction d with
  | nil => rw [dictLookup_nil] at hw; cases hw
  | cons kv rest ih =>
    rw [dictLookup_cons] at hw
    show List.map Prod.fst (if kv.1 = k then (k, v) :: rest else kv :: dictInsert k v rest) = _
    by_cases h1 : kv.1 = k
    · rw [if_pos h1]
      simp [h1]
    · rw [if_neg h1] at hw
      rw [if_neg h1, List.map_cons, List.map_cons, ih hw]

theorem mem_dictInsert {κ α : Type} [DecidableEq κ] (k : κ) (v : α) (kv : κ × α)
    (d : List (κ × α)) (h : kv ∈ dictInsert k v d) : kv = (k, v) ∨ kv ∈ d := by
  induction d with
  | nil =>
    simp only [dictInsert, List.mem_singleton] at h
    exact Or.inl h
  | cons kv0 rest ih =>
    simp only [dictInsert] at h
    by_cases h1 : kv0.1 = k
    · rw [if_pos h1] at h
      rcases List.mem_cons.mp h with h2 | h2
      · exact Or.inl h2
      · exact Or.inr (List.mem_cons_of_mem _ h2)
    · rw [if_neg h1] at h
      rcases List.mem_cons.mp h with h2 | h2
      · exact Or.inr (h2 ▸ List.mem_cons_self _ _)
      · rcases ih h2 with h3 | h3
        · exact Or.inl h3
        · exact Or.inr (List.mem_cons_of_mem _ h3)

theorem dictLookup_mem {κ α : Type} [DecidableEq κ] (k : κ) (v : α) (d : List (κ × α))
    (h : dictLookup k d = some v) : (k, v) ∈ d := by
  induction d with
  | nil => cases h
  | cons kv rest ih =>
    rw [dictLookup_cons] at h
    by_cases h1 : kv.1 = k
    · rw [if_pos h1] at h
      have h2 : kv.2 = v := Option.some.inj h
      have : kv = (k, v) := Prod.ext h1 h2
      exact this ▸ List.mem_cons_self _ _
    · rw [if_neg h1] at h
      exact List.mem_cons_of_mem _ (ih h)

theorem dictLookup_eq_of_mem_nodup {κ α : Type} [DecidableEq κ] (k : κ) (v : α)
    (d : List (κ × α)) (hnd : (d.map Prod.fst).Nodup) (h : (k, v) ∈ d) :
    dictLookup k d = some v := by
  induction d with
  | nil => cases h
  | cons kv rest ih =>
    rw [List.map_cons, List.nodup_cons] at hnd
    rw [dictLookup_cons]
    rcases List.mem_cons.mp h with h1 | h1
    · rw [if_pos (congrArg Prod.fst h1.symm), ← h1]
    · have hk : kv.1 ≠ k := by
        intro hc
        exact hnd.1 (hc ▸ List.mem_map.mpr ⟨(k, v), h1, rfl⟩)
      rw [if_neg hk]
      exact ih hnd.2 h1

/- ### Stable sort lemmas -/

theorem insertByLe_perm {α : Type} (le : α → α → Bool) (x : α) (l : List α) :
    List.Perm (insertByLe le x l) (x :: l) := by
  induction l with
  | nil => exact List.Perm.refl _
  | cons y ys ih =>
    show List.Perm (if le y x then y :: insertByLe le x ys else x :: y :: ys) _
    by_cases h : le y x = true
    · rw [if_pos h]
      exact (ih.cons y).trans (List.Perm.swap x y ys)
    · rw [if_neg h]

theorem stableSortBy_perm {α : Type} (le : α → α → Bool) (l : List α) :
    List.Perm (stableSortBy le l) l := by
  suffices h : ∀ (l acc : List α),
      List.Perm (l.foldl (fun acc x => insertByLe le x acc) acc) (acc ++ l) by
    simpa using h l []
  intro l
  induction l with
  | nil => intro acc; simp
  | cons x xs ih =>
    intro acc
    refine ((ih (insertByLe le x acc)).trans ?_)
    refine (((insertByLe_perm le x acc).append_right xs).trans ?_)
    exact List.perm_middle.symm

theorem insertByLe_of_all {α : Type} (le : α → α → Bool) (x : α) (l : List α)
    (h : ∀ y ∈ l, le y x = true) : insertByLe le x l = l ++ [x] := by
  induction l with
  | nil => rfl
  | cons y ys ih =>
    have hy : le y x = true := h y (List.mem_cons_self _ _)
    show (if le y x then y :: insertByLe le x ys else x :: y :: ys) = _
    rw [if_pos hy, List.cons_append, ih (fun z hz => h z (List.mem_cons_of_mem _ hz))]

theorem stableSortBy_of_pairwise {α : Type} (le : α → α → Bool) (l : List α)
    (h : l.Pairwise (fun a b => le a b = true)) : stableSortBy le l = l := by
  suffices hgen : ∀ (l acc : List α), acc.Pairwise (fun a b => le a b = true) →
      (∀ a ∈ acc, ∀ b ∈ l, le a b = true) → l.Pairwise (fun a b => le a b = true) →
      l.foldl (fun acc x => insertByLe le x acc) acc = acc ++ l by
    simpa using hgen l [] (by simp) (by simp) h
  intro l
  induction l with
  | nil => intro acc _ _ _; simp
  | cons x xs ih =>
    intro acc hacc hcross hl
    have hx : insertByLe le x acc = acc ++ [x] :=
      insertByLe_of_all le x acc (fun y hy => hcross y hy x (List.mem_cons_self _ _))
    have hpw : (acc ++ [x]).Pairwise (fun a b => le a b = true) := by
      rw [List.pairwise_append]
      refine ⟨hacc, by simp, ?_⟩
      intro a ha b hb
      rw [List.mem_singleton] at hb
      exact hb ▸ hcross a ha x (List.mem_cons_self _ _)
    have hcr : ∀ a ∈ acc ++ [x], ∀ b ∈ xs, le a b = true := by
      intro a ha b hb
      rcases List.mem_append.mp ha with h1 | h1
      · exact hcross a h1 b (List.mem_cons_of_mem _ hb)
      · rw [List.mem_singleton] at h1
        subst h1
        exact (List.pairwise_cons.mp hl).1 b hb
    rw [List.foldl_cons, hx, ih (acc ++ [x]) hpw hcr (List.pairwise_cons.mp hl).2,
      List.append_assoc, List.singleton_append]

/- ### More dictionary lemmas -/

theorem dictLookup_none_iff {κ α : Type} [DecidableEq κ] (k : κ) (d : List (κ × α)) :
    dictLookup k d = none ↔ ∀ kv ∈ d, kv.1 ≠ k := by
  induction d with
  | nil => simp [dictLookup_nil]
  | cons kv rest ih =>
    rw [dictLookup_cons]
    by_cases h1 : kv.1 = k
    · simp [h1]
    · simp [h1, ih]

theorem dictContains_iff_exists_mem {κ α : Type} [DecidableEq κ] (k : κ) (d : List (κ × α)) :
    dictContains k d = true ↔ ∃ kv ∈ d, kv.1 = k := by
  constructor
  · intro h
    obtain ⟨v, hv⟩ := (dictContains_true_iff k d).mp h
    exact ⟨(k, v), dictLookup_mem k v d hv, rfl⟩
  · intro ⟨kv, hmem, hk⟩
    cases hb : dictContains k d
    · rw [dictContains_false_iff] at hb
      exact absurd hk ((dictLookup_none_iff k d).mp hb kv hmem)
    · rfl

theorem dictInsert_ne_nil {κ α : Type} [DecidableEq κ] (k : κ) (v : α) (d : List (κ × α)) :
    dictInsert k v d ≠ [] := by
  cases d with
  | nil => simp [dictInsert]
  | cons kv rest =>
    show (if kv.1 = k then (k, v) :: rest else kv :: dictInsert k v rest) ≠ []
    by_cases h : kv.1 = k
    · rw [if_pos h]; simp
    · rw [if_neg h]; simp

theorem dictInsert_append_last {κ α : Type} [DecidableEq κ] (k : κ) (v w : α)
    (d : List (κ × α)) (h : ∀ kv ∈ d, kv.1 ≠ k) :
    dictInsert k v (d ++ [(k, w)]) = d ++ [(k, v)] := by
  induction d with
  | nil => simp [dictInsert]
  | cons kv rest ih =>
    have hk : kv.1 ≠ k := h kv (List.mem_cons_self _ _)
    show (if kv.1 = k then _ else kv :: dictInsert k v (rest ++ [(k, w)])) = _
    rw [if_neg hk, ih (fun x hx => h x (List.mem_cons_of_mem _ hx))]
    rfl

theorem dictLookup_append {κ α : Type} [DecidableEq κ] (k : κ) (d1 d2 : List (κ × α)) :
    dictLookup k (d1 ++ d2) =
      match dictLookup k d1 with
      | some v => some v
      | none => dictLookup k d2 := by
  induction d1 with
  | nil => simp [dictLookup_nil]
  | cons kv rest ih =>
    rw [List.cons_append, dictLookup_cons, dictLookup_cons]
    by_cases h1 : kv.1 = k
    · rw [if_pos h1, if_pos h1]
    · rw [if_neg h1, if_neg h1, ih]

/- ### A generic fold invariant -/

theorem foldl_invariant {α β : Type} (P : β → Prop) (f : β → α → β) :
    ∀ (l : List α) (b : β), P b → (∀ b a, a ∈ l → P b → P (f b a)) → P (l.foldl f b) := by
  intro l
  induction l with
  | nil => intro b h0 _; exact h0
  | cons x xs ih =>
    intro b h0 hstep
    rw [List.foldl_cons]
    exact ih (f b x) (hstep b x (List.mem_cons_self _ _) h0)
      (fun b' a ha hb' => hstep b' a (List.mem_cons_of_mem _ ha) hb')

/- ### Invariants of `buildSnapshotsMap` -/

/-- Well-formedness of a positions dict: distinct keys, each being the
`pos_key` of its record. -/
def goodPositions (ps : List (String × PosData)) : Prop :=
  (ps.map Prod.fst).Nodup ∧ ∀ kv ∈ ps, kv.1 = posKey kv.2.symbol kv.2.side

theorem goodPositions_nil : goodPositions [] := ⟨List.nodup_nil, by simp⟩

theorem goodPositions_dictInsert (ps : List (String × PosData)) (k : String) (pd : PosData)
    (h : goodPositions ps) (hk : k = posKey pd.symbol pd.side) :
    goodPositions (dictInsert k pd ps) := by
  constructor
  · cases hb : dictContains k ps
    · rw [dictInsert_of_not_contains k pd ps hb, List.map_append]
      simp only [List.map_cons, List.map_nil]
      rw [List.nodup_append]
      refine ⟨h.1, List.nodup_singleton _, ?_⟩
      intro a ha hb2
      rw [List.mem_singleton] at hb2
      subst hb2
      rw [dictContains_false_iff, dictLookup_none_iff] at hb
      obtain ⟨kv, hkv, hfst⟩ := List.mem_map.mp ha
      exact hb kv hkv hfst
    · rw [keys_dictInsert_of_contains k pd ps hb]
      exact h.1
  · intro kv hkv
    rcases mem_dictInsert k pd kv ps hkv with h1 | h1
    · rw [h1]
      exact hk
    · exact h.2 kv h1

/-- The full invariant of the snapshot map built from `rows`: every entry has a
well-formed, nonempty positions dict; its id, time and every stored record come
from fetched rows of that same snapshot. -/
def buildInv (rows : List Row) (m : List (Nat × SnapEntry)) : Prop :=
  ∀ e ∈ m, goodPositions e.2.positions ∧ e.2.positions ≠ [] ∧
    (∃ r ∈ rows, e.1 = r.snap_id ∧ e.2.created_at = r.created_at) ∧
    (∀ kv ∈ e.2.positions, ∃ r ∈ rows, e.1 = r.snap_id ∧ kv.2 = rowPosData r ∧
      kv.1 = posKey r.symbol r.side)

theorem insertRow_buildInv (rows : List Row) (m : List (Nat × SnapEntry)) (r : Row)
    (hr : r ∈ rows) (hm : buildInv rows m) : buildInv rows (insertRow m r) := by
  unfold insertRow
  cases hb : dictContains r.snap_id m
  · -- fresh snapshot id: the map gains one entry holding exactly the new record
    have hnone : dictLookup r.snap_id m = none := (dictContains_false_iff _ m).mp hb
    have hne : ∀ kv ∈ m, kv.1 ≠ r.snap_id := (dictLookup_none_iff _ m).mp hnone
    have hm1 : dictInsert r.snap_id (⟨r.created_at, []⟩ : SnapEntry) m
        = m ++ [(r.snap_id, ⟨r.created_at, []⟩)] :=
      dictInsert_of_not_contains _ _ m hb
    simp only [hb, Bool.false_eq_true, if_false, hm1]
    have hlk : dictLookup r.snap_id (m ++ [(r.snap_id, (⟨r.created_at, []⟩ : SnapEntry))])
        = some ⟨r.created_at, []⟩ := by
      rw [dictLookup_append, hnone]
      rw [dictLookup_cons]
      simp
    rw [hlk]
    simp only
    rw [dictInsert_append_last _ _ _ m hne]
    intro e he
    rcases List.mem_append.mp he with h1 | h1
    · exact hm e h1
    · rw [List.mem_singleton] at h1
      subst h1
      refine ⟨?_, ?_, ⟨r, hr, rfl, rfl⟩, ?_⟩
      · exact goodPositions_dictInsert [] _ _ goodPositions_nil rfl
      · exact dictInsert_ne_nil _ _ _
      · intro kv hkv
        rcases mem_dictInsert _ _ kv [] hkv with h2 | h2
        · exact ⟨r, hr, rfl, by rw [h2], by rw [h2]⟩
        · cases h2
  · -- existing snapshot id: its positions dict gains/overwrites one record
    obtain ⟨e0, he0⟩ := (dictContains_true_iff _ m).mp hb
    simp only [hb, if_true, he0]
    have he0m : (r.snap_id, e0) ∈ m := dictLookup_mem _ _ m he0
    obtain ⟨hg0, _, ⟨r0, hr0, hid0, hca0⟩, hkv0⟩ := hm (r.snap_id, e0) he0m
    intro e he
    rcases mem_dictInsert _ _ e m he with h1 | h1
    · subst h1
      refine ⟨?_, dictInsert_ne_nil _ _ _, ⟨r0, hr0, hid0, hca0⟩, ?_⟩
      · exact goodPositions_dictInsert e0.positions _ _ hg0 rfl
      · intro kv hkv
        rcases mem_dictInsert _ _ kv e0.positions hkv with h2 | h2
        · exact ⟨r, hr, rfl, by rw [h2], by rw [h2]⟩
        · exact hkv0 kv h2
    · exact hm e h1

theorem buildSnapshotsMap_inv (rows : List Row) : buildInv rows (buildSnapshotsMap rows) := by
  unfold buildSnapshotsMap
  exact foldl_invariant (buildInv rows) insertRow rows [] (by intro e he; cases he)
    (fun m r hr hm => insertRow_buildInv rows m r hr hm)

theorem sortedSnaps_mem_iff (rows : List Row) (e : Nat × SnapEntry) :
    e ∈ sortedSnaps rows ↔ e ∈ buildSnapshotsMap rows := by
  unfold sortedSnaps
  exact (stableSortBy_perm _ _).mem_iff

theorem sortedSnaps_inv (rows : List Row) :
    ∀ e ∈ sortedSnaps rows, goodPositions e.2.positions ∧ e.2.positions ≠ [] ∧
      (∃ r ∈ rows, e.1 = r.snap_id ∧ e.2.created_at = r.created_at) ∧
      (∀ kv ∈ e.2.positions, ∃ r ∈ rows, e.1 = r.snap_id ∧ kv.2 = rowPosData r ∧
        kv.1 = posKey r.symbol r.side) := by
  intro e he
  exact buildSnapshotsMap_inv rows e ((sortedSnaps_mem_iff rows e).mp he)

/- ### Characterizing the registration fold -/

theorem regFold_lookup_isSome (t : Time) :
    ∀ (ps : List (String × PosData)) (st : List (String × Time)) (k : String),
      (dictLookup k st).isSome = true →
      dictLookup k (ps.foldl
        (fun st kv => if dictContains kv.1 st then st else dictInsert kv.1 t st) st)
      = dictLookup k st := by
  intro ps
  induction ps with
  | nil => intro st k _; rfl
  | cons kv rest ih =>
    intro st k h
    simp only [List.foldl_cons]
    cases hb : dictContains kv.1 st
    · rw [if_neg Bool.false_ne_true]
      have hne : kv.1 ≠ k := by
        intro hc
        rw [dictContains, hc] at hb
        rw [hb] at h
        cases h
      have hl : dictLookup k (dictInsert kv.1 t st) = dictLookup k st := by
        rw [dictLookup_dictInsert, if_neg hne]
      rw [ih (dictInsert kv.1 t st) k (by rw [hl]; exact h), hl]
    · rw [if_pos rfl]
      exact ih st k h

theorem regFold_lookup_none (t : Time) :
    ∀ (ps : List (String × PosData)) (st : List (String × Time)) (k : String),
      dictLookup k st = none →
      dictLookup k (ps.foldl
        (fun st kv => if dictContains kv.1 st then st else dictInsert kv.1 t st) st)
      = if ps.any (fun kv => decide (kv.1 = k)) then some t else none := by
  intro ps
  induction ps with
  | nil =>
    intro st k h0
    rw [List.foldl_nil, List.any_nil, if_neg Bool.false_ne_true, h0]
  | cons kv rest ih =>
    intro st k h0
    simp only [List.foldl_cons, List.any_cons]
    cases hb : dictContains kv.1 st
    · rw [if_neg Bool.false_ne_true]
      by_cases hk : kv.1 = k
      · have hsome : (dictLookup k (dictInsert kv.1 t st)).isSome = true := by
          rw [hk, dictLookup_dictInsert, if_pos rfl]
          rfl
        rw [regFold_lookup_isSome t rest (dictInsert kv.1 t st) k hsome,
          dictLookup_dictInsert, if_pos hk]
        simp [hk]
      · have hl : dictLookup k (dictInsert kv.1 t st) = none := by
          rw [dictLookup_dictInsert, if_neg hk, h0]
        rw [ih _ k hl]
        simp only [decide_eq_false hk, Bool.false_or]
    · rw [if_pos rfl]
      by_cases hk : kv.1 = k
      · rw [dictContains, hk, h0] at hb
        cases hb
      · rw [ih st k h0]
        simp only [decide_eq_false hk, Bool.false_or]

theorem registerPositions_lookup_isSome (curr : SnapEntry) (st : List (String × Time))
    (k : String) (h : (dictLookup k st).isSome = true) :
    dictLookup k (registerPositions curr st) = dictLookup k st :=
  regFold_lookup_isSome curr.created_at curr.positions st k h

theorem registerPositions_lookup_none (curr : SnapEntry) (st : List (String × Time))
    (k : String) (h : dictLookup k st = none) :
    dictLookup k (registerPositions curr st) =
      if dictContains k curr.positions then some curr.created_at else none := by
  unfold registerPositions
  rw [regFold_lookup_none curr.created_at curr.positions st k h]
  cases hb : dictContains k curr.positions
  · rw [if_neg Bool.false_ne_true]
    rw [dictContains_false_iff, dictLookup_none_iff] at hb
    rw [if_neg]
    intro hc
    obtain ⟨kv, hkv, hdec⟩ := List.any_eq_true.mp hc
    exact hb kv hkv (of_decide_eq_true hdec)
  · rw [if_pos rfl, if_pos]
    obtain ⟨kv, hkv, hfst⟩ := (dictContains_iff_exists_mem k curr.positions).mp hb
    exact List.any_eq_true.mpr ⟨kv, hkv, decide_eq_true hfst⟩

/- ### Characterizing the closure fold -/

/-- The list of closures one step emits, in source iteration order: the records
of the current snapshot whose key is absent from the next snapshot, with
`opened_at` read from the tracking dict as it stood at the start of the step. -/
def stepEmit (nextPs : List (String × PosData)) (ct nt : Time) (st : List (String × Time)) :
    List (String × PosData) → List ClosedPosition
  | [] => []
  | kv :: rest =>
    if dictContains kv.1 nextPs then stepEmit nextPs ct nt st rest
    else mkClosed kv.2 ((dictLookup kv.1 st).getD ct) nt :: stepEmit nextPs ct nt st rest

theorem stepEmit_congr (nextPs : List (String × PosData)) (ct nt : Time)
    (st1 st2 : List (String × Time)) :
    ∀ (ps : List (String × PosData)),
      (∀ kv ∈ ps, dictLookup kv.1 st1 = dictLookup kv.1 st2) →
      stepEmit nextPs ct nt st1 ps = stepEmit nextPs ct nt st2 ps := by
  intro ps
  induction ps with
  | nil => intro _; rfl
  | cons kv rest ih =>
    intro h
    show (if dictContains kv.1 nextPs then _ else _) = (if dictContains kv.1 nextPs then _ else _)
    cases hb : dictContains kv.1 nextPs
    · rw [if_neg Bool.false_ne_true, if_neg Bool.false_ne_true,
        h kv (List.mem_cons_self _ _), ih (fun x hx => h x (List.mem_cons_of_mem _ hx))]
    · rw [if_pos rfl, if_pos rfl, ih (fun x hx => h x (List.mem_cons_of_mem _ hx))]

theorem closeFold_fst (nextPs : List (String × PosData)) (ct nt : Time) :
    ∀ (ps : List (String × PosData)) (acc : List ClosedPosition) (st : List (String × Time)),
      (ps.map Prod.fst).Nodup →
      (ps.foldl (closeStep nextPs ct nt) (acc, st)).1 = acc ++ stepEmit nextPs ct nt st ps := by
  intro ps
  induction ps with
  | nil =>
    intro acc st _
    rw [List.foldl_nil]
    show acc = acc ++ []
    rw [List.append_nil]
  | cons kv rest ih =>
    intro acc st hnd
    rw [List.map_cons, List.nodup_cons] at hnd
    simp only [List.foldl_cons]
    show (List.foldl (closeStep nextPs ct nt) (closeStep nextPs ct nt (acc, st) kv) rest).1
      = acc ++ (if dictContains kv.1 nextPs then _ else _)
    cases hb : dictContains kv.1 nextPs
    · rw [if_neg Bool.false_ne_true]
      have hstep : closeStep nextPs ct nt (acc, st) kv
          = (acc ++ [mkClosed kv.2 ((dictLookup kv.1 st).getD ct) nt], dictErase kv.1 st) := by
        unfold closeStep
        rw [hb, if_neg Bool.false_ne_true]
      rw [hstep, ih _ _ hnd.2,
        stepEmit_congr nextPs ct nt (dictErase kv.1 st) st rest ?_,
        List.append_assoc, List.singleton_append]
      intro x hx
      have hne : kv.1 ≠ x.1 := by
        intro hc
        exact hnd.1 (hc ▸ List.mem_map.mpr ⟨x, hx, rfl⟩)
      rw [dictLookup_dictErase, if_neg hne]
    · rw [if_pos rfl]
      have hstep : closeStep nextPs ct nt (acc, st) kv = (acc, st) := by
        unfold closeStep
        rw [hb, if_pos rfl]
      rw [hstep, ih _ _ hnd.2]

theorem closeFold_snd (nextPs : List (String × PosData)) (ct nt : Time) :
    ∀ (ps : List (String × PosData)) (acc : List ClosedPosition) (st : List (String × Time))
      (k : String),
      dictLookup k (ps.foldl (closeStep nextPs ct nt) (acc, st)).2
        = if ps.any (fun kv => decide (kv.1 = k) && !dictContains kv.1 nextPs) then none
          else dictLookup k st := by
  intro ps
  induction ps with
  | nil =>
    intro acc st k
    rw [List.foldl_nil, List.any_nil, if_neg Bool.false_ne_true]
  | cons kv rest ih =>
    intro acc st k
    simp only [List.foldl_cons, List.any_cons]
    by_cases hb : dictContains kv.1 nextPs = true
    · have hstep : closeStep nextPs ct nt (acc, st) kv = (acc, st) := by
        unfold closeStep
        rw [hb, if_pos rfl]
      rw [hstep, ih]
      simp only [hb, Bool.not_true, Bool.and_false, Bool.false_or]
    · have hb2 : dictContains kv.1 nextPs = false := Bool.of_not_eq_true hb
      have hstep : closeStep nextPs ct nt (acc, st) kv
          = (acc ++ [mkClosed kv.2 ((dictLookup kv.1 st).getD ct) nt], dictErase kv.1 st) := by
        unfold closeStep
        rw [hb2, if_neg Bool.false_ne_true]
      rw [hstep, ih]
      by_cases hk : kv.1 = k
      · simp only [hb2]
        simp only [hk]
        simp [dictLookup_dictErase]
      · simp only [hb2]
        simp only [hk]
        simp [dictLookup_dictErase, hk]
        simp only [Bool.false_and, Bool.false_or]

/-- Provenance of closures emitted by one step fold, without any assumption on
the dict state: each comes either from the accumulator or from a record of the
step whose key vanished. -/
theorem closeFold_mem (nextPs : List (String × PosData)) (ct nt : Time) :
    ∀ (ps : List (String × PosData)) (acc : List ClosedPosition) (st : List (String × Time))
      (c : ClosedPosition),
      c ∈ (ps.foldl (closeStep nextPs ct nt) (acc, st)).1 →
      c ∈ acc ∨ ∃ kv ∈ ps, dictContains kv.1 nextPs = false ∧ ∃ u, c = mkClosed kv.2 u nt := by
  intro ps
  induction ps with
  | nil =>
    intro acc st c hc
    exact Or.inl hc
  | cons kv rest ih =>
    intro acc st c hc
    simp only [List.foldl_cons] at hc
    cases hb : dictContains kv.1 nextPs
    · have hstep : closeStep nextPs ct nt (acc, st) kv
          = (acc ++ [mkClosed kv.2 ((dictLookup kv.1 st).getD ct) nt], dictErase kv.1 st) := by
        unfold closeStep
        rw [hb, if_neg Bool.false_ne_true]
      rw [hstep] at hc
      rcases ih _ _ c hc with h1 | ⟨kv2, hkv2, hb2, u, hu⟩
      · rcases List.mem_append.mp h1 with h2 | h2
        · exact Or.inl h2
        · rw [List.mem_singleton] at h2
          exact Or.inr ⟨kv, List.mem_cons_self _ _, hb, _, h2⟩
      · exact Or.inr ⟨kv2, List.mem_cons_of_mem _ hkv2, hb2, u, hu⟩
    · have hstep : closeStep nextPs ct nt (acc, st) kv = (acc, st) := by
        unfold closeStep
        rw [hb, if_pos rfl]
      rw [hstep] at hc
      rcases ih _ _ c hc with h1 | ⟨kv2, hkv2, hb2, u, hu⟩
      · exact Or.inl h1
      · exact Or.inr ⟨kv2, List.mem_cons_of_mem _ hkv2, hb2, u, hu⟩

/- ### Unfolding one loop step -/

theorem reconcileLoop_nil (st : List (String × Time)) : reconcileLoop [] st = [] := rfl

theorem reconcileLoop_single (x : Nat × SnapEntry) (st : List (String × Time)) :
    reconcileLoop [x] st = [] := by
  obtain ⟨i, e⟩ := x
  rfl

theorem reconcileLoop_cons₂ (a b : Nat × SnapEntry) (rest : List (Nat × SnapEntry))
    (st : List (String × Time)) (hnd : (a.2.positions.map Prod.fst).Nodup) :
    reconcileLoop (a :: b :: rest) st
      = stepEmit b.2.positions a.2.created_at b.2.created_at
          (registerPositions a.2 st) a.2.positions
        ++ reconcileLoop (b :: rest)
          (a.2.positions.foldl
            (closeStep b.2.positions a.2.created_at b.2.created_at)
            ([], registerPositions a.2 st)).2 := by
  obtain ⟨i, curr⟩ := a
  obtain ⟨j, next⟩ := b
  show (curr.positions.foldl (closeStep next.positions curr.created_at next.created_at)
      ([], registerPositions curr st)).1 ++ _ = _
  rw [closeFold_fst next.positions curr.created_at next.created_at curr.positions []
    (registerPositions curr st) hnd]
  rw [List.nil_append]

/- ### Index helpers -/

theorem pairwise_rel_of_getElem? {α : Type} {R : α → α → Prop} {l : List α} (h : l.Pairwise R)
    {i j : Nat} {x y : α} (hi : l[i]? = some x) (hj : l[j]? = some y) (hij : i < j) : R x y := by
  obtain ⟨hi', hx⟩ := List.getElem?_eq_some_iff.mp hi
  obtain ⟨hj', hy⟩ := List.getElem?_eq_some_iff.mp hj
  subst hx
  subst hy
  exact List.pairwise_iff_getElem.mp h i j hi' hj' hij

/- ### The key-and-time filter used to isolate one closure -/

/-- Selects the closures carrying a given record's symbol and side and a given
detection timestamp. -/
def matchKeyAt (pd : PosData) (T : Time) (c : ClosedPosition) : Bool :=
  c.symbol == pd.symbol && (c.side == pd.side && (c.closed_at == T))

theorem matchKeyAt_eq_true_iff (pd : PosData) (T : Time) (c : ClosedPosition) :
    matchKeyAt pd T c = true ↔ c.symbol = pd.symbol ∧ c.side = pd.side ∧ c.closed_at = T := by
  unfold matchKeyAt
  simp [Bool.and_eq_true]

theorem matchKeyAt_mkClosed_self (pd : PosData) (u T : Time) :
    matchKeyAt pd T (mkClosed pd u T) = true := by
  rw [matchKeyAt_eq_true_iff]
  exact ⟨rfl, rfl, rfl⟩

/- ### stepEmit lemmas -/

theorem stepEmit_closed_at (nps : List (String × PosData)) (ct nt : Time)
    (st : List (String × Time)) :
    ∀ (ps : List (String × PosData)) (c : ClosedPosition),
      c ∈ stepEmit nps ct nt st ps → c.closed_at = nt := by
  intro ps
  induction ps with
  | nil => intro c hc; cases hc
  | cons kv rest ih =>
    intro c
    show c ∈ (if dictContains kv.1 nps then stepEmit nps ct nt st rest
        else mkClosed kv.2 ((dictLookup kv.1 st).getD ct) nt :: stepEmit nps ct nt st rest) →
      c.closed_at = nt
    cases hb : dictContains kv.1 nps
    · rw [if_neg Bool.false_ne_true]
      intro hc
      rcases List.mem_cons.mp hc with h1 | h1
      · rw [h1]
        rfl
      · exact ih c h1
    · rw [if_pos rfl]
      intro hc
      exact ih c hc

theorem stepEmit_filter_nil_time (nps : List (String × PosData)) (ct nt : Time)
    (st : List (String × Time)) (ps : List (String × PosData)) (pd : PosData) (T : Time)
    (h : nt ≠ T) :
    (stepEmit nps ct nt st ps).filter (matchKeyAt pd T) = [] := by
  rw [List.filter_eq_nil_iff]
  intro c hc
  intro hmatch
  obtain ⟨_, _, hT⟩ := (matchKeyAt_eq_true_iff pd T c).mp hmatch
  exact h ((stepEmit_closed_at nps ct nt st ps c hc) ▸ hT)

theorem stepEmit_filter_nil_keys (nps : List (String × PosData)) (ct nt : Time)
    (st : List (String × Time)) (pd : PosData) (k : String)
    (hpk : posKey pd.symbol pd.side = k) :
    ∀ (ps : List (String × PosData)),
      (∀ kv ∈ ps, kv.1 = posKey kv.2.symbol kv.2.side) →
      (∀ kv ∈ ps, kv.1 ≠ k) →
      (stepEmit nps ct nt st ps).filter (matchKeyAt pd nt) = [] := by
  intro ps
  induction ps with
  | nil => intro _ _; rfl
  | cons kv rest ih =>
    intro hcons hne
    show List.filter _ (if dictContains kv.1 nps then _ else _) = []
    cases hb : dictContains kv.1 nps
    · rw [if_neg Bool.false_ne_true, List.filter_cons]
      have hm : matchKeyAt pd nt (mkClosed kv.2 ((dictLookup kv.1 st).getD ct) nt) = false := by
        cases hmb : matchKeyAt pd nt (mkClosed kv.2 ((dictLookup kv.1 st).getD ct) nt)
        · rfl
        · obtain ⟨hs, hd, _⟩ := (matchKeyAt_eq_true_iff _ _ _).mp hmb
          have : kv.1 = k := by
            rw [hcons kv (List.mem_cons_self _ _)]
            show posKey kv.2.symbol kv.2.side = k
            have hs' : kv.2.symbol = pd.symbol := hs
            have hd' : kv.2.side = pd.side := hd
            rw [hs', hd', hpk]
          exact absurd this (hne kv (List.mem_cons_self _ _))
      rw [hm, if_neg Bool.false_ne_true]
      exact ih (fun x hx => hcons x (List.mem_cons_of_mem _ hx))
        (fun x hx => hne x (List.mem_cons_of_mem _ hx))
    · rw [if_pos rfl]
      exact ih (fun x hx => hcons x (List.mem_cons_of_mem _ hx))
        (fun x hx => hne x (List.mem_cons_of_mem _ hx))

theorem stepEmit_filter_single (nps : List (String × PosData)) (ct nt : Time)
    (st : List (String × Time)) (k : String) (pd : PosData) :
    ∀ (ps : List (String × PosData)),
      goodPositions ps →
      dictLookup k ps = some pd →
      dictContains k nps = false →
      (stepEmit nps ct nt st ps).filter (matchKeyAt pd nt)
        = [mkClosed pd ((dictLookup k st).getD ct) nt] := by
  intro ps
  induction ps with
  | nil => intro _ hlk; cases hlk
  | cons kv rest ih =>
    intro hg hlk habs
    have hg2 : goodPositions rest := by
      obtain ⟨hnd, hcons⟩ := hg
      rw [List.map_cons, List.nodup_cons] at hnd
      exact ⟨hnd.2, fun x hx => hcons x (List.mem_cons_of_mem _ hx)⟩
    rw [dictLookup_cons] at hlk
    show List.filter _ (if dictContains kv.1 nps then _ else _) = _
    by_cases hk : kv.1 = k
    · rw [if_pos hk] at hlk
      have hpd : kv.2 = pd := Option.some.inj hlk
      have hpk : posKey pd.symbol pd.side = k := by
        rw [← hpd, ← hg.2 kv (List.mem_cons_self _ _), hk]
      rw [hk]
      rw [if_neg (by rw [habs]; exact Bool.false_ne_true), List.filter_cons, hpd,
        matchKeyAt_mkClosed_self, if_pos rfl]
      have htail : (stepEmit nps ct nt st rest).filter (matchKeyAt pd nt) = [] := by
        apply stepEmit_filter_nil_keys nps ct nt st pd k hpk rest hg2.2
        intro x hx hxk
        obtain ⟨hnd, _⟩ := hg
        rw [List.map_cons, List.nodup_cons] at hnd
        apply hnd.1
        rw [hk, ← hxk]
        exact List.mem_map.mpr ⟨x, hx, rfl⟩
      rw [htail]
    · rw [if_neg hk] at hlk
      have hpk2 : k = posKey pd.symbol pd.side :=
        hg2.2 (k, pd) (dictLookup_mem k pd rest hlk)
      have hk2 : posKey pd.symbol pd.side ≠ kv.1 := by
        intro hc
        exact hk (hc.symm.trans hpk2.symm)
      cases hb : dictContains kv.1 nps
      · rw [if_neg Bool.false_ne_true, List.filter_cons]
        have hm : matchKeyAt pd nt (mkClosed kv.2 ((dictLookup kv.1 st).getD ct) nt) = false := by
          cases hmb : matchKeyAt pd nt (mkClosed kv.2 ((dictLookup kv.1 st).getD ct) nt)
          · rfl
          · obtain ⟨hs, hd, _⟩ := (matchKeyAt_eq_true_iff _ _ _).mp hmb
            have hs' : kv.2.symbol = pd.symbol := hs
            have hd' : kv.2.side = pd.side := hd
            have : kv.1 = posKey pd.symbol pd.side := by
              rw [hg.2 kv (List.mem_cons_self _ _), hs', hd']
            exact absurd this.symm hk2
        rw [hm, if_neg Bool.false_ne_true]
        exact ih hg2 hlk habs
      · rw [if_pos rfl]
        exact ih hg2 hlk habs

/- ### Unfolding and provenance of the loop -/

theorem reconcileLoop_cons_cons (a b : Nat × SnapEntry) (rest : List (Nat × SnapEntry))
    (st : List (String × Time)) :
    reconcileLoop (a :: b :: rest) st
      = (a.2.positions.foldl (closeStep b.2.positions a.2.created_at b.2.created_at)
          ([], registerPositions a.2 st)).1
        ++ reconcileLoop (b :: rest)
          (a.2.positions.foldl (closeStep b.2.positions a.2.created_at b.2.created_at)
            ([], registerPositions a.2 st)).2 := by
  obtain ⟨i, curr⟩ := a
  obtain ⟨j, next⟩ := b
  rfl

/-- Every closure the loop emits originates from a record that is present in
some processed snapshot and absent from the successor, carrying that record's
fields and the successor's timestamp. -/
theorem reconcileLoop_mem :
    ∀ (snaps : List (Nat × SnapEntry)) (st : List (String × Time)) (c : ClosedPosition),
      c ∈ reconcileLoop snaps st →
      ∃ (i : Nat) (x y : Nat × SnapEntry), snaps[i]? = some x ∧ snaps[i+1]? = some y ∧
        ∃ kv ∈ x.2.positions, dictContains kv.1 y.2.positions = false ∧
          c.symbol = kv.2.symbol ∧ c.side = kv.2.side ∧ c.entry_price = kv.2.entry_price ∧
          c.exit_price = kv.2.mark_price ∧ c.pnl_usd = kv.2.pnl_usd ∧
          c.leverage = kv.2.leverage ∧ c.closed_at = y.2.created_at := by
  intro snaps
  induction snaps with
  | nil =>
    intro st c hc
    rw [reconcileLoop_nil] at hc
    cases hc
  | cons a rest ih =>
    intro st c hc
    cases rest with
    | nil =>
      rw [reconcileLoop_single] at hc
      cases hc
    | cons b rest2 =>
      rw [reconcileLoop_cons_cons] at hc
      rcases List.mem_append.mp hc with h1 | h1
      · rcases closeFold_mem b.2.positions a.2.created_at b.2.created_at a.2.positions []
          (registerPositions a.2 st) c h1 with h2 | ⟨kv, hkv, hb, u, hu⟩
        · cases h2
        · refine ⟨0, a, b, rfl, by rw [List.getElem?_cons_succ, List.getElem?_cons_zero], kv, hkv,
            hb, ?_⟩
          subst hu
          exact ⟨rfl, rfl, rfl, rfl, rfl, rfl, rfl⟩
      · obtain ⟨i, x, y, hx, hy, hrest⟩ := ih _ c h1
        exact ⟨i + 1, x, y, by rw [List.getElem?_cons_succ]; exact hx,
          by rw [List.getElem?_cons_succ]; exact hy, hrest⟩

/-- When the target time is not the timestamp of any non-first snapshot of the
remaining sequence, the loop contributes no matching closure at all. -/
theorem loop_filter_nil_high (snaps : List (Nat × SnapEntry)) (st : List (String × Time))
    (pd : PosData) (T : Time)
    (h : ∀ (i : Nat) (y : Nat × SnapEntry), snaps[i+1]? = some y → y.2.created_at ≠ T) :
    (reconcileLoop snaps st).filter (matchKeyAt pd T) = [] := by
  rw [List.filter_eq_nil_iff]
  intro c hc hmatch
  obtain ⟨i, x, y, _, hy, ⟨kv, _, _, _, _, _, _, _, _, hclosed⟩⟩ := reconcileLoop_mem snaps st c hc
  obtain ⟨_, _, hT⟩ := (matchKeyAt_eq_true_iff pd T c).mp hmatch
  exact h i y hy (hclosed ▸ hT)

/- ### Exactly one closure per adjacent disappearance -/

theorem loop_close_filter :
    ∀ (i : Nat) (snaps : List (Nat × SnapEntry)) (st : List (String × Time))
      (k : String) (pd : PosData) (y : Nat × SnapEntry),
      (∀ e ∈ snaps, goodPositions e.2.positions) →
      snaps.Pairwise (fun a b => a.2.created_at < b.2.created_at) →
      (∃ x, snaps[i]? = some x ∧ dictLookup k x.2.positions = some pd) →
      snaps[i+1]? = some y →
      dictContains k y.2.positions = false →
      ∃ topen, (reconcileLoop snaps st).filter (matchKeyAt pd y.2.created_at)
        = [mkClosed pd topen y.2.created_at] := by
  intro i
  induction i with
  | zero =>
    intro snaps st k pd y hgood hpw hx hy habs
    obtain ⟨x, hx0, hlk⟩ := hx
    cases snaps with
    | nil => simp at hx0
    | cons a tail =>
      cases tail with
      | nil =>
        rw [List.getElem?_cons_succ] at hy
        simp at hy
      | cons b rest =>
        rw [List.getElem?_cons_zero] at hx0
        have hxa : a = x := Option.some.inj hx0
        subst hxa
        rw [List.getElem?_cons_succ, List.getElem?_cons_zero] at hy
        have hyb : b = y := Option.some.inj hy
        subst hyb
        rw [reconcileLoop_cons₂ a b rest st (hgood a (List.mem_cons_self _ _)).1,
          List.filter_append]
        have h1 := stepEmit_filter_single b.2.positions a.2.created_at b.2.created_at
          (registerPositions a.2 st) k pd a.2.positions (hgood a (List.mem_cons_self _ _))
          hlk habs
        have h2 : (reconcileLoop (b :: rest)
            (a.2.positions.foldl
              (closeStep b.2.positions a.2.created_at b.2.created_at)
              ([], registerPositions a.2 st)).2).filter (matchKeyAt pd b.2.created_at)
            = [] := by
          apply loop_filter_nil_high
          intro i2 y2 hy2
          have hpw2 : (b :: rest).Pairwise (fun a b => a.2.created_at < b.2.created_at) :=
            (List.pairwise_cons.mp hpw).2
          have hlt : b.2.created_at < y2.2.created_at :=
            pairwise_rel_of_getElem? hpw2 List.getElem?_cons_zero hy2 (Nat.succ_pos i2)
          exact ne_of_gt hlt
        rw [h1, h2, List.append_nil]
        exact ⟨_, rfl⟩
  | succ j ih =>
    intro snaps st k pd y hgood hpw hx hy habs
    cases snaps with
    | nil =>
      obtain ⟨x, hx0, _⟩ := hx
      simp at hx0
    | cons a tail =>
      cases tail with
      | nil =>
        rw [List.getElem?_cons_succ] at hy
        simp at hy
      | cons b rest =>
        rw [List.getElem?_cons_succ] at hy
        have hbt : b.2.created_at < y.2.created_at := by
          have hpw2 : (b :: rest).Pairwise (fun a b => a.2.created_at < b.2.created_at) :=
            (List.pairwise_cons.mp hpw).2
          exact pairwise_rel_of_getElem? hpw2 List.getElem?_cons_zero hy (Nat.succ_pos _)
        rw [reconcileLoop_cons₂ a b rest st (hgood a (List.mem_cons_self _ _)).1,
          List.filter_append]
        have h1 := stepEmit_filter_nil_time b.2.positions a.2.created_at b.2.created_at
          (registerPositions a.2 st) a.2.positions pd y.2.created_at (ne_of_lt hbt)
        rw [h1, List.nil_append]
        apply ih (b :: rest) _ k pd y (fun e he => hgood e (List.mem_cons_of_mem _ he))
          (List.pairwise_cons.mp hpw).2 ?_ hy habs
        obtain ⟨x, hx0, hlk⟩ := hx
        rw [List.getElem?_cons_succ] at hx0
        exact ⟨x, hx0, hlk⟩

/-- Filtering commutes with the final descending sort: a singleton stays a
singleton. -/
theorem get_closed_positions_filter_singleton (rows : List Row)
    (p : ClosedPosition → Bool) (x : ClosedPosition)
    (h : (reconcileLoop (sortedSnaps rows) []).filter p = [x]) :
    (get_closed_positions rows).filter p = [x] := by
  unfold get_closed_positions
  have hp := (stableSortBy_perm (fun a b => decide (b.closed_at ≤ a.closed_at))
    (reconcileLoop (sortedSnaps rows) [])).filter p
  rw [h] at hp
  exact List.perm_singleton.mp hp

theorem mem_get_closed_positions_iff (rows : List Row) (c : ClosedPosition) :
    c ∈ get_closed_positions rows ↔ c ∈ reconcileLoop (sortedSnaps rows) [] := by
  unfold get_closed_positions
  exact (stableSortBy_perm _ _).mem_iff

/- ### Tracking-state lemmas across one step -/

theorem stepState_lookup_of_next (ps nps : List (String × PosData)) (ct nt : Time)
    (reg : List (String × Time)) (k : String) (h : dictContains k nps = true) :
    dictLookup k (ps.foldl (closeStep nps ct nt) ([], reg)).2 = dictLookup k reg := by
  rw [closeFold_snd nps ct nt ps [] reg k, if_neg]
  intro hc
  obtain ⟨kv, hkv, hcond⟩ := List.any_eq_true.mp hc
  simp only [Bool.and_eq_true] at hcond
  obtain ⟨hdec, hnot⟩ := hcond
  rw [of_decide_eq_true hdec, h] at hnot
  simp at hnot

theorem stepState_lookup_some (ps nps : List (String × PosData)) (ct nt : Time)
    (reg : List (String × Time)) (k : String) (v : Time)
    (h : dictLookup k (ps.foldl (closeStep nps ct nt) ([], reg)).2 = some v) :
    dictLookup k reg = some v := by
  rw [closeFold_snd nps ct nt ps [] reg k] at h
  revert h
  cases hany : ps.any (fun kv => decide (kv.1 = k) && !dictContains kv.1 nps)
  · rw [if_neg Bool.false_ne_true]
    exact id
  · rw [if_pos rfl]
    intro h
    cases h

theorem stepState_lookup_none_of_reg (ps nps : List (String × PosData)) (ct nt : Time)
    (reg : List (String × Time)) (k : String) (h : dictLookup k reg = none) :
    dictLookup k (ps.foldl (closeStep nps ct nt) ([], reg)).2 = none := by
  rw [closeFold_snd nps ct nt ps [] reg k, h, ite_self]

theorem registerPositions_lookup_some (curr : SnapEntry) (st : List (String × Time))
    (k : String) (v : Time) (h : dictLookup k (registerPositions curr st) = some v) :
    dictLookup k st = some v ∨
      (dictLookup k st = none ∧ dictContains k curr.positions = true ∧ v = curr.created_at) := by
  cases hst : dictLookup k st with
  | some w =>
    left
    rw [registerPositions_lookup_isSome curr st k (by rw [hst]; rfl), hst] at h
    exact h
  | none =>
    right
    rw [registerPositions_lookup_none curr st k hst] at h
    revert h
    cases hb : dictContains k curr.positions
    · rw [if_neg Bool.false_ne_true]
      intro h
      cases h
    · rw [if_pos rfl]
      intro h
      exact ⟨rfl, rfl, (Option.some.inj h).symm⟩

/-- When a key is present in the current snapshot, its registered start time is
the already-tracked value if any, else the current timestamp. -/
theorem reg_lookup_run (a : SnapEntry) (st : List (String × Time)) (k : String) (T : Time)
    (hT : (dictLookup k st).getD a.created_at = T)
    (hmem : dictContains k a.positions = true) :
    dictLookup k (registerPositions a st) = some T := by
  cases hst : dictLookup k st with
  | some v =>
    rw [hst, Option.getD_some] at hT
    rw [registerPositions_lookup_isSome a st k (by rw [hst]; rfl), hst, hT]
  | none =>
    rw [hst, Option.getD_none] at hT
    rw [registerPositions_lookup_none a st k hst, if_pos hmem, hT]

/-- The domain invariant: after one step against successor positions `bPos`,
every tracked key is present in `bPos`. -/
theorem stepState_dom_next (a : SnapEntry) (bPos : List (String × PosData)) (nt : Time)
    (st : List (String × Time))
    (hdom : ∀ k', dictContains k' st = true → dictContains k' a.positions = true) :
    ∀ k', dictContains k'
        ((a.positions.foldl (closeStep bPos a.created_at nt) ([], registerPositions a st)).2)
        = true →
      dictContains k' bPos = true := by
  intro k' hk'
  obtain ⟨v, hv⟩ := (dictContains_true_iff _ _).mp hk'
  have hreg : dictLookup k' (registerPositions a st) = some v :=
    stepState_lookup_some _ _ _ _ _ k' v hv
  have hmem : dictContains k' a.positions = true := by
    rcases registerPositions_lookup_some a st k' v hreg with h1 | ⟨_, h2, _⟩
    · exact hdom k' ((dictContains_true_iff _ _).mpr ⟨v, h1⟩)
    · exact h2
  have hany : (a.positions.any fun kv => decide (kv.1 = k') && !dictContains kv.1 bPos)
      = false := by
    cases hany2 : (a.positions.any fun kv => decide (kv.1 = k') && !dictContains kv.1 bPos)
    · rfl
    · rw [closeFold_snd bPos a.created_at nt a.positions [] (registerPositions a st) k',
        hany2, if_pos rfl] at hv
      cases hv
  obtain ⟨kv, hkv, hfst⟩ := (dictContains_iff_exists_mem k' a.positions).mp hmem
  have hnk := List.any_eq_false.mp hany kv hkv
  cases hcb : dictContains k' bPos
  · exfalso
    apply hnk
    rw [hfst, hcb]
    simp
  · rfl

/- ### Exactly one closure per present-run, with the run's own opening time -/

theorem loop_run_filter :
    ∀ (snaps : List (Nat × SnapEntry)) (st : List (String × Time)) (c e : Nat)
      (k : String) (pd : PosData) (q : Nat × SnapEntry) (T : Time),
      (∀ x ∈ snaps, goodPositions x.2.positions) →
      snaps.Pairwise (fun a b => a.2.created_at < b.2.created_at) →
      c ≤ e →
      (∀ j, c ≤ j → j ≤ e → ∃ x, snaps[j]? = some x ∧ dictContains k x.2.positions = true) →
      (∃ x, snaps[e]? = some x ∧ dictLookup k x.2.positions = some pd) →
      snaps[e+1]? = some q →
      dictContains k q.2.positions = false →
      ((c = 0 ∧ ∃ h0, snaps[0]? = some h0 ∧ (dictLookup k st).getD h0.2.created_at = T) ∨
       (1 ≤ c ∧ (∃ p2, snaps[c-1]? = some p2 ∧ dictContains k p2.2.positions = false) ∧
        (∀ k', dictContains k' st = true →
          ∃ h0, snaps[0]? = some h0 ∧ dictContains k' h0.2.positions = true) ∧
        (∃ x, snaps[c]? = some x ∧ x.2.created_at = T))) →
      (reconcileLoop snaps st).filter (matchKeyAt pd q.2.created_at)
        = [mkClosed pd T q.2.created_at] := by
  intro snaps
  induction snaps with
  | nil =>
    intro st c e k pd q T _ _ _ _ _ hq _ _
    simp at hq
  | cons a tail ih =>
    intro st c e k pd q T hgood hpw hce hrun hpd hq habsq hstart
    cases tail with
    | nil =>
      rw [List.getElem?_cons_succ] at hq
      simp at hq
    | cons b rest =>
      have hgood_a := hgood a (List.mem_cons_self _ _)
      have hgood_tail : ∀ x ∈ b :: rest, goodPositions x.2.positions :=
        fun x hx => hgood x (List.mem_cons_of_mem _ hx)
      have hpw_tail : (b :: rest).Pairwise (fun a b => a.2.created_at < b.2.created_at) :=
        (List.pairwise_cons.mp hpw).2
      rw [reconcileLoop_cons₂ a b rest st hgood_a.1, List.filter_append]
      cases c with
      | zero =>
        obtain ⟨h0, hh0, hT⟩ : ∃ h0, (a :: b :: rest)[0]? = some h0 ∧
            (dictLookup k st).getD h0.2.created_at = T := by
          rcases hstart with ⟨_, hs⟩ | ⟨hc1, _⟩
          · exact hs
          · exact absurd hc1 (by omega)
        rw [List.getElem?_cons_zero] at hh0
        have hh0a : a = h0 := Option.some.inj hh0
        subst hh0a
        have hmem_a : dictContains k a.2.positions = true := by
          obtain ⟨x, hx0, hcx⟩ := hrun 0 (Nat.le_refl 0) (Nat.zero_le e)
          rw [List.getElem?_cons_zero] at hx0
          rw [← Option.some.inj hx0] at hcx
          exact hcx
        have hregT : dictLookup k (registerPositions a.2 st) = some T :=
          reg_lookup_run a.2 st k T hT hmem_a
        cases e with
        | zero =>
          obtain ⟨x, hx0, hlk⟩ := hpd
          rw [List.getElem?_cons_zero] at hx0
          have hxa : a = x := Option.some.inj hx0
          rw [← hxa] at hlk
          rw [List.getElem?_cons_succ, List.getElem?_cons_zero] at hq
          have hqb : b = q := Option.some.inj hq
          subst hqb
          have h1 := stepEmit_filter_single b.2.positions a.2.created_at b.2.created_at
            (registerPositions a.2 st) k pd a.2.positions hgood_a hlk habsq
          rw [hregT, Option.getD_some] at h1
          have h2 : (reconcileLoop (b :: rest)
              (a.2.positions.foldl
                (closeStep b.2.positions a.2.created_at b.2.created_at)
                ([], registerPositions a.2 st)).2).filter (matchKeyAt pd b.2.created_at)
              = [] := by
            apply loop_filter_nil_high
            intro i2 y2 hy2
            exact ne_of_gt
              (pairwise_rel_of_getElem? hpw_tail List.getElem?_cons_zero hy2 (Nat.succ_pos i2))
          rw [h1, h2, List.append_nil]
        | succ e2 =>
          rw [List.getElem?_cons_succ] at hq
          have hqt : b.2.created_at < q.2.created_at :=
            pairwise_rel_of_getElem? hpw_tail List.getElem?_cons_zero hq (Nat.succ_pos _)
          have h1 := stepEmit_filter_nil_time b.2.positions a.2.created_at b.2.created_at
            (registerPositions a.2 st) a.2.positions pd q.2.created_at (ne_of_lt hqt)
          rw [h1, List.nil_append]
          have hmem_b : dictContains k b.2.positions = true := by
            obtain ⟨x, hx1, hcx⟩ := hrun 1 (Nat.zero_le 1) (by omega)
            rw [List.getElem?_cons_succ, List.getElem?_cons_zero] at hx1
            rw [← Option.some.inj hx1] at hcx
            exact hcx
          apply ih _ 0 e2 k pd q T hgood_tail hpw_tail (Nat.zero_le e2) ?_ ?_ hq habsq
          · left
            refine ⟨rfl, b, List.getElem?_cons_zero, ?_⟩
            rw [stepState_lookup_of_next a.2.positions b.2.positions a.2.created_at
              b.2.created_at (registerPositions a.2 st) k hmem_b, hregT, Option.getD_some]
          · intro j hj0 hje
            obtain ⟨x, hxj, hcx⟩ := hrun (j+1) (Nat.zero_le _) (by omega)
            rw [List.getElem?_cons_succ] at hxj
            exact ⟨x, hxj, hcx⟩
          · obtain ⟨x, hxe, hlk⟩ := hpd
            rw [List.getElem?_cons_succ] at hxe
            exact ⟨x, hxe, hlk⟩
      | succ c2 =>
        obtain ⟨hprev, hdom, hTx⟩ :
            (∃ p2, (a :: b :: rest)[c2]? = some p2 ∧ dictContains k p2.2.positions = false) ∧
            (∀ k', dictContains k' st = true →
              ∃ h0, (a :: b :: rest)[0]? = some h0 ∧ dictContains k' h0.2.positions = true) ∧
            (∃ x, (a :: b :: rest)[c2+1]? = some x ∧ x.2.created_at = T) := by
          rcases hstart with ⟨hc0, _⟩ | ⟨_, hp, hd, hx⟩
          · exact absurd hc0 (by omega)
          · exact ⟨hp, hd, hx⟩
        cases e with
        | zero => exact absurd hce (by omega)
        | succ e3 =>
          rw [List.getElem?_cons_succ] at hq
          have hqt : b.2.created_at < q.2.created_at :=
            pairwise_rel_of_getElem? hpw_tail List.getElem?_cons_zero hq (Nat.succ_pos _)
          have h1 := stepEmit_filter_nil_time b.2.positions a.2.created_at b.2.created_at
            (registerPositions a.2 st) a.2.positions pd q.2.created_at (ne_of_lt hqt)
          rw [h1, List.nil_append]
          have hdom_a : ∀ k', dictContains k' st = true →
              dictContains k' a.2.positions = true := by
            intro k' hk'
            obtain ⟨h0, hh0, hc0⟩ := hdom k' hk'
            rw [List.getElem?_cons_zero] at hh0
            rw [← Option.some.inj hh0] at hc0
            exact hc0
          have hdom' := stepState_dom_next a.2 b.2.positions b.2.created_at st hdom_a
          apply ih _ c2 e3 k pd q T hgood_tail hpw_tail (by omega) ?_ ?_ hq habsq
          · cases c2 with
            | zero =>
              left
              refine ⟨rfl, b, List.getElem?_cons_zero, ?_⟩
              obtain ⟨p2, hp2, habs_p⟩ := hprev
              rw [List.getElem?_cons_zero] at hp2
              rw [← Option.some.inj hp2] at habs_p
              have hst_none : dictLookup k st = none := by
                cases hcs : dictContains k st
                · exact (dictContains_false_iff k st).mp hcs
                · obtain ⟨h0, hh0, hc0⟩ := hdom k hcs
                  rw [List.getElem?_cons_zero] at hh0
                  rw [← Option.some.inj hh0] at hc0
                  rw [hc0] at habs_p
                  cases habs_p
              have hreg_none : dictLookup k (registerPositions a.2 st) = none := by
                rw [registerPositions_lookup_none a.2 st k hst_none, habs_p,
                  if_neg Bool.false_ne_true]
              rw [stepState_lookup_none_of_reg a.2.positions b.2.positions a.2.created_at
                b.2.created_at (registerPositions a.2 st) k hreg_none, Option.getD_none]
              obtain ⟨x, hx1, hxT⟩ := hTx
              rw [List.getElem?_cons_succ, List.getElem?_cons_zero] at hx1
              rw [← Option.some.inj hx1] at hxT
              exact hxT
            | succ c3 =>
              right
              refine ⟨by omega, ?_, ?_, ?_⟩
              · obtain ⟨p2, hp2, habs_p⟩ := hprev
                rw [List.getElem?_cons_succ] at hp2
                exact ⟨p2, hp2, habs_p⟩
              · intro k' hk'
                exact ⟨b, List.getElem?_cons_zero, hdom' k' hk'⟩
              · obtain ⟨x, hx1, hxT⟩ := hTx
                rw [List.getElem?_cons_succ] at hx1
                exact ⟨x, hx1, hxT⟩
          · intro j hj0 hje
            obtain ⟨x, hxj, hcx⟩ := hrun (j+1) (by omega) (by omega)
            rw [List.getElem?_cons_succ] at hxj
            exact ⟨x, hxj, hcx⟩
          · obtain ⟨x, hxe, hlk⟩ := hpd
            rw [List.getElem?_cons_succ] at hxe
            exact ⟨x, hxe, hlk⟩

/- ### Claim C1 -/

/-- C1: for every snapshot sequence processed in ascending (strictly increasing)
timestamp order and every adjacent pair `(S_i, S_{i+1})` of the processed
sequence, each position key present in `S_i` but absent from `S_{i+1}` yields
exactly one ClosedPosition — the filter on its record's symbol, side and the
successor's timestamp returns a singleton — whose `entry_price` and `leverage`
come from that key's record in `S_i`, whose `exit_price` equals that record's
`mark_price`, whose realized pnl equals that record's `pnl_usd`, and whose
`closed_at` equals `S_{i+1}`'s timestamp. -/
theorem spec_C1_adjacent_disappearance (rows : List Row) (i : Nat) (k : String)
    (pd : PosData) (x y : Nat × SnapEntry)
    (hpw : (sortedSnaps rows).Pairwise (fun a b => a.2.created_at < b.2.created_at))
    (hx : (sortedSnaps rows)[i]? = some x)
    (hlk : dictLookup k x.2.positions = some pd)
    (hy : (sortedSnaps rows)[i+1]? = some y)
    (habs : dictContains k y.2.positions = false) :
    ∃ topen, (get_closed_positions rows).filter (matchKeyAt pd y.2.created_at)
      = [mkClosed pd topen y.2.created_at] := by
  obtain ⟨topen, h⟩ := loop_close_filter i (sortedSnaps rows) [] k pd y
    (fun e he => (sortedSnaps_inv rows e he).1) hpw ⟨x, hx, hlk⟩ hy habs
  exact ⟨topen, get_closed_positions_filter_singleton rows _ _ h⟩

def c1Rows : List Row := [
  ⟨1, 1, "BTC", "long", some 100, some 105, some 5, some "10x"⟩,
  ⟨2, 2, "BTC", "long", some 100, some 110, some 10, some "10x"⟩,
  ⟨2, 2, "ETH", "short", some 40, some 41, some (-2), none⟩,
  ⟨3, 3, "ETH", "short", some 40, some 39, some 2, none⟩]

def c1Pd : PosData := ⟨"BTC", "long", 100, 110, 10, some "10x"⟩

def c1X : Nat × SnapEntry :=
  (2, ⟨2, [("BTC_long", c1Pd), ("ETH_short", ⟨"ETH", "short", 40, 41, -2, none⟩)]⟩)

def c1Y : Nat × SnapEntry :=
  (3, ⟨3, [("ETH_short", ⟨"ETH", "short", 40, 39, 2, none⟩)]⟩)

/-- C1 witness: concrete three-snapshot run where `BTC/long` is present in the
second snapshot and absent from the third. -/
theorem spec_C1_adjacent_disappearance_witness :
    ((sortedSnaps c1Rows).Pairwise (fun a b => a.2.created_at < b.2.created_at) ∧
      (sortedSnaps c1Rows)[1]? = some c1X ∧
      dictLookup "BTC_long" c1X.2.positions = some c1Pd ∧
      (sortedSnaps c1Rows)[2]? = some c1Y ∧
      dictContains "BTC_long" c1Y.2.positions = false) ∧
    (∃ topen, (get_closed_positions c1Rows).filter (matchKeyAt c1Pd 3)
      = [mkClosed c1Pd topen 3]) := by
  refine ⟨⟨by decide, by decide, by decide, by decide, by decide⟩, ?_⟩
  exact spec_C1_adjacent_disappearance c1Rows 1 "BTC_long" c1Pd c1X c1Y
    (by decide) (by decide) (by decide) (by decide) (by decide)

/- ### Claim C2 -/

def c2Rows : List Row := [
  ⟨1, 1, "AAA", "long", none, none, none, none⟩,
  ⟨2, 2, "BBB", "long", none, none, none, none⟩,
  ⟨3, 3, "AAA", "long", none, none, none, none⟩]

/-- C2 counterexample: with snapshots `{AAA}`, `{BBB}`, `{AAA}`, the key
`AAA/long` is present in the last processed snapshot, yet a ClosedPosition for
it (from its earlier closed run) appears in the returned list. -/
theorem spec_C2_counterexample :
    ((sortedSnaps c2Rows).map (fun e => dictContains "AAA_long" e.2.positions)).getLast?
      = some true ∧
    (get_closed_positions c2Rows).any
      (fun c => posKey c.symbol c.side == "AAA_long") = true := by
  decide

theorem length_dictInsert_of_contains {κ α : Type} [DecidableEq κ] (k : κ) (v : α)
    (d : List (κ × α)) (h : dictContains k d = true) :
    (dictInsert k v d).length = d.length := by
  have h1 := keys_dictInsert_of_contains k v d h
  have h2 : ((dictInsert k v d).map Prod.fst).length = ((d.map Prod.fst)).length := by rw [h1]
  simpa using h2

theorem insertRow_nil (r : Row) :
    insertRow [] r
      = [(r.snap_id, ⟨r.created_at, [(posKey r.symbol r.side, rowPosData r)]⟩)] := by
  simp [insertRow, dictContains, dictLookup, dictInsert]

theorem buildSnapshotsMap_single_id (rid : Nat) (rows : List Row)
    (hall : ∀ r ∈ rows, r.snap_id = rid) :
    (buildSnapshotsMap rows).length ≤ 1 := by
  unfold buildSnapshotsMap
  have hinv := foldl_invariant (fun m => m.length ≤ 1 ∧ ∀ e ∈ m, e.1 = rid)
    insertRow rows [] ⟨by simp, by intro e he; cases he⟩ ?_
  · exact hinv.1
  intro m r hr hm
  obtain ⟨hlen, hid⟩ := hm
  by_cases hb : dictContains r.snap_id m = true
  · obtain ⟨e0, he0⟩ := (dictContains_true_iff _ _).mp hb
    unfold insertRow
    rw [if_pos hb]
    simp only [he0]
    constructor
    · rw [length_dictInsert_of_contains _ _ _ hb]
      exact hlen
    · intro e he
      rcases mem_dictInsert _ _ e m he with h1 | h1
      · rw [h1]
        exact hall r hr
      · exact hid e h1
  · have hm0 : m = [] := by
      cases m with
      | nil => rfl
      | cons e0 ms =>
        exfalso
        apply hb
        apply (dictContains_iff_exists_mem _ _).mpr
        exact ⟨e0, List.mem_cons_self _ _, by rw [hid e0 (List.mem_cons_self _ _), hall r hr]⟩
    subst hm0
    rw [insertRow_nil]
    constructor
    · simp
    · intro e he
      rw [List.mem_singleton] at he
      rw [he]
      exact hall r hr

/-- C2 (amended): the last snapshot never triggers closures.  A sequence whose
rows all belong to one snapshot (or no rows at all) yields an empty
closed-position list; and when the processed snapshots carry strictly
ascending timestamps, a position key present in the last processed snapshot
never appears in the closed list with the last snapshot's timestamp — reaching
the end of the sequence closes nothing, so any appearance of such a key in the
list stems from an earlier run that already closed against a successor
snapshot (see the counterexample). -/
theorem spec_C2_amended :
    (∀ (rid : Nat) (rows : List Row), (∀ r ∈ rows, r.snap_id = rid) →
      get_closed_positions rows = []) ∧
    (∀ (rows : List Row) (z : Nat × SnapEntry) (k : String),
      (sortedSnaps rows).Pairwise (fun a b => a.2.created_at < b.2.created_at) →
      (sortedSnaps rows).getLast? = some z →
      dictContains k z.2.positions = true →
      ∀ c ∈ get_closed_positions rows, posKey c.symbol c.side = k →
        c.closed_at ≠ z.2.created_at) := by
  constructor
  · intro rid rows hall
    have hlen : (sortedSnaps rows).length ≤ 1 := by
      unfold sortedSnaps
      rw [(stableSortBy_perm _ _).length_eq]
      exact buildSnapshotsMap_single_id rid rows hall
    have hloop : reconcileLoop (sortedSnaps rows) [] = [] := by
      cases hs : sortedSnaps rows with
      | nil => exact reconcileLoop_nil []
      | cons a tail =>
        cases tail with
        | nil => exact reconcileLoop_single a []
        | cons b rest =>
          rw [hs] at hlen
          simp at hlen
    unfold get_closed_positions
    rw [hloop]
    rfl
  · intro rows z k hpw hlast hk c hc hkey hcl
    rw [mem_get_closed_positions_iff] at hc
    obtain ⟨i, x, y, hx, hy, kv, hkv, habs, hsym, hside, _, _, _, _, hct⟩ :=
      reconcileLoop_mem _ _ c hc
    have hxmem : x ∈ sortedSnaps rows := by
      obtain ⟨hilen, hxeq⟩ := List.getElem?_eq_some_iff.mp hx
      exact hxeq ▸ List.getElem_mem hilen
    have hkk : kv.1 = posKey kv.2.symbol kv.2.side :=
      (sortedSnaps_inv rows x hxmem).1.2 kv hkv
    have hk1 : kv.1 = k := by
      rw [hkk, ← hsym, ← hside, hkey]
    have hzIdx : (sortedSnaps rows)[(sortedSnaps rows).length - 1]? = some z := by
      rw [← List.getLast?_eq_getElem? (sortedSnaps rows)]
      exact hlast
    have hi1 : i + 1 < (sortedSnaps rows).length := (List.getElem?_eq_some_iff.mp hy).1
    rcases Nat.lt_or_ge (i + 1) ((sortedSnaps rows).length - 1) with hlt | hge
    · have hrel := pairwise_rel_of_getElem? hpw hy hzIdx hlt
      rw [hct] at hcl
      exact absurd hcl (Nat.ne_of_lt hrel)
    · have heq : i + 1 = (sortedSnaps rows).length - 1 := by omega
      rw [heq, hzIdx] at hy
      have hyz : y = z := (Option.some.inj hy).symm
      rw [hk1, hyz, hk] at habs
      cases habs

def c2Z : Nat × SnapEntry := (3, ⟨3, [("AAA_long", ⟨"AAA", "long", 0, 0, 0, none⟩)]⟩)

/-- C2 witness: a single-snapshot input yields no closures; and on the reopen
input, the key present in the last snapshot has no closure carrying the last
snapshot's timestamp (its one closure was detected at time 2, not 3). -/
theorem spec_C2_amended_witness :
    get_closed_positions [⟨7, 5, "XRP", "long", none, none, none, none⟩,
      ⟨7, 5, "SOL", "short", none, none, none, none⟩] = [] ∧
    ((sortedSnaps c2Rows).Pairwise (fun a b => a.2.created_at < b.2.created_at) ∧
      (sortedSnaps c2Rows).getLast? = some c2Z ∧
      dictContains "AAA_long" c2Z.2.positions = true) ∧
    (∀ c ∈ get_closed_positions c2Rows, posKey c.symbol c.side = "AAA_long" →
      c.closed_at ≠ 3) := by
  refine ⟨?_, ⟨by decide, by decide, by decide⟩, ?_⟩
  · exact spec_C2_amended.1 7
      [⟨7, 5, "XRP", "long", none, none, none, none⟩,
       ⟨7, 5, "SOL", "short", none, none, none, none⟩] (by decide)
  · intro c hc hkey
    exact spec_C2_amended.2 c2Rows c2Z "AAA_long" (by decide) (by decide) (by decide)
      c hc hkey

/- ### Claim C3 -/

def c3Rows : List Row := [
  ⟨1, 1, "AAA", "long", none, none, none, none⟩,
  ⟨2, 2, "BBB", "long", none, none, none, none⟩,
  ⟨3, 3, "AAA", "long", none, none, none, none⟩,
  ⟨4, 4, "BBB", "long", none, none, none, none⟩]

/-- C3 counterexample: `AAA/long` is present, absent, present again, and both
of its present-runs close, so the two runs together produce two
ClosedPositions, not at most one. -/
theorem spec_C3_counterexample :
    ((sortedSnaps c3Rows).map (fun e => dictContains "AAA_long" e.2.positions))
      = [true, false, true, false] ∧
    ((get_closed_positions c3Rows).filter
      (fun c => posKey c.symbol c.side == "AAA_long")).length = 2 := by
  decide

/-- C3 (amended): lifecycle runs are independent.  If a key is absent at
position `c-1` and present through positions `c..e` (a reopened run), and
absent again at `e+1`, then that run produces exactly one ClosedPosition; its
`opened_at` is the timestamp of the run's own first snapshot (the tracking
entry of the earlier run having been deleted when its closure was emitted), and
its `closed_at` is the timestamp of snapshot `e+1`.  Each present-run therefore
yields at most one closure, but a sequence in which both runs end produces one
closure per run. -/
theorem spec_C3_amended (rows : List Row) (c e : Nat) (k : String) (pd : PosData)
    (p x q : Nat × SnapEntry) (T : Time)
    (hpw : (sortedSnaps rows).Pairwise (fun a b => a.2.created_at < b.2.created_at))
    (hc1 : 1 ≤ c) (hce : c ≤ e)
    (hprev : (sortedSnaps rows)[c-1]? = some p)
    (hprev_abs : dictContains k p.2.positions = false)
    (hrun : ∀ j, c ≤ j → j ≤ e →
      ∃ z, (sortedSnaps rows)[j]? = some z ∧ dictContains k z.2.positions = true)
    (hx : (sortedSnaps rows)[c]? = some x) (hxT : x.2.created_at = T)
    (hpd : ∃ z, (sortedSnaps rows)[e]? = some z ∧ dictLookup k z.2.positions = some pd)
    (hq : (sortedSnaps rows)[e+1]? = some q)
    (habs : dictContains k q.2.positions = false) :
    (get_closed_positions rows).filter (matchKeyAt pd q.2.created_at)
      = [mkClosed pd T q.2.created_at] := by
  apply get_closed_positions_filter_singleton
  apply loop_run_filter (sortedSnaps rows) [] c e k pd q T
    (fun z hz => (sortedSnaps_inv rows z hz).1) hpw hce hrun hpd hq habs
  right
  refine ⟨hc1, ⟨p, hprev, hprev_abs⟩, ?_, ⟨x, hx, hxT⟩⟩
  intro k' hk'
  simp [dictContains, dictLookup_nil] at hk'

def c3P : Nat × SnapEntry := (2, ⟨2, [("BBB_long", ⟨"BBB", "long", 0, 0, 0, none⟩)]⟩)

def c3X : Nat × SnapEntry := (3, ⟨3, [("AAA_long", ⟨"AAA", "long", 0, 0, 0, none⟩)]⟩)

def c3Q : Nat × SnapEntry := (4, ⟨4, [("BBB_long", ⟨"BBB", "long", 0, 0, 0, none⟩)]⟩)

def c3Pd : PosData := ⟨"AAA", "long", 0, 0, 0, none⟩

/-- C3 witness: the reopened run of `AAA/long` (snapshot 3, after absence at
snapshot 2) yields exactly one closure with its own fresh `opened_at = 3` and
`closed_at = 4`. -/
theorem spec_C3_amended_witness :
    (get_closed_positions c3Rows).filter (matchKeyAt c3Pd 4) = [mkClosed c3Pd 3 4] := by
  have h := spec_C3_amended c3Rows 2 2 "AAA_long" c3Pd c3P c3X c3Q 3
    (by decide) (by decide) (by decide) (by decide) (by decide)
    (fun j hj1 hj2 => by
      have hj : j = 2 := Nat.le_antisymm hj2 hj1
      subst hj
      exact ⟨c3X, by decide, by decide⟩)
    (by decide) (by decide)
    ⟨c3X, by decide, by decide⟩
    (by decide) (by decide)
  exact h

/- ### Rounding bounds -/

theorem roundHalfEven_le_int (x : ℚ) (n : ℤ) (h : x ≤ (n : ℚ)) : roundHalfEven x ≤ n := by
  unfold roundHalfEven
  have hf : ⌊x⌋ ≤ n := by
    calc ⌊x⌋ ≤ ⌊(n : ℚ)⌋ := Int.floor_le_floor h
    _ = n := Int.floor_intCast n
  by_cases h1 : x - (⌊x⌋ : ℚ) < 1/2
  · rw [if_pos h1]
    exact hf
  · have hge : (1:ℚ)/2 ≤ x - (⌊x⌋ : ℚ) := not_lt.mp h1
    have hfl : (⌊x⌋ : ℚ) < (n : ℚ) := by linarith
    have hsucc : ⌊x⌋ + 1 ≤ n := Int.add_one_le_iff.mpr (by exact_mod_cast hfl)
    rw [if_neg h1]
    by_cases h2 : 1/2 < x - (⌊x⌋ : ℚ)
    · rw [if_pos h2]
      exact hsucc
    · rw [if_neg h2]
      by_cases h3 : ⌊x⌋ % 2 = 0
      · rw [if_pos h3]
        exact hf
      · rw [if_neg h3]
        exact hsucc

theorem roundHalfEven_nonneg (x : ℚ) (h : 0 ≤ x) : 0 ≤ roundHalfEven x := by
  unfold roundHalfEven
  have hf : 0 ≤ ⌊x⌋ := Int.floor_nonneg.mpr h
  by_cases h1 : x - (⌊x⌋ : ℚ) < 1/2
  · rw [if_pos h1]
    exact hf
  · rw [if_neg h1]
    by_cases h2 : 1/2 < x - (⌊x⌋ : ℚ)
    · rw [if_pos h2]
      omega
    · rw [if_neg h2]
      by_cases h3 : ⌊x⌋ % 2 = 0
      · rw [if_pos h3]
        exact hf
      · rw [if_neg h3]
        omega

theorem pyRound1_nonneg (x : ℚ) (h : 0 ≤ x) : 0 ≤ pyRound1 x := by
  unfold pyRound1
  have h1 : (0 : ℚ) ≤ ((roundHalfEven (x * 10) : ℤ) : ℚ) := by
    exact_mod_cast roundHalfEven_nonneg (x * 10) (by linarith)
  linarith

theorem pyRound1_le_100 (x : ℚ) (h : x ≤ 100) : pyRound1 x ≤ 100 := by
  unfold pyRound1
  have h1 : roundHalfEven (x * 10) ≤ (1000 : ℤ) :=
    roundHalfEven_le_int (x * 10) 1000 (by push_cast; linarith)
  have h2 : ((roundHalfEven (x * 10) : ℤ) : ℚ) ≤ 1000 := by exact_mod_cast h1
  linarith

theorem pyRound1_zero : pyRound1 0 = 0 := by
  unfold pyRound1 roundHalfEven
  norm_num

/- ### Claim C4 -/

/-- C4: for every list of closed positions, `calculate_stats` reports `wins` as
the count of positions with positive realized pnl, `losses = total - wins`, and
a win rate that equals `round(wins / total * 100, 1)` when `total > 0` and `0`
when `total = 0`; consequently the win rate always lies in `[0, 100]`. -/
theorem spec_C4_calculate_stats (pos_list : List ClosedPosition) :
    (calculate_stats pos_list).total = pos_list.length ∧
    (calculate_stats pos_list).wins
      = (pos_list.filter (fun p => decide (0 < p.pnl_usd))).length ∧
    (calculate_stats pos_list).losses
      = (calculate_stats pos_list).total - (calculate_stats pos_list).wins ∧
    (calculate_stats pos_list).win_rate
      = (if 0 < pos_list.length
         then pyRound1 (((pos_list.filter (fun p => decide (0 < p.pnl_usd))).length : ℚ)
            / (pos_list.length : ℚ) * 100)
         else 0) ∧
    0 ≤ (calculate_stats pos_list).win_rate ∧
    (calculate_stats pos_list).win_rate ≤ 100 := by
  have hwt : (pos_list.filter (fun p => decide (0 < p.pnl_usd))).length ≤ pos_list.length :=
    List.length_filter_le _ _
  refine ⟨rfl, rfl, rfl, ?_, ?_, ?_⟩
  · show pyRound1 (if 0 < pos_list.length then _ else 0) = _
    by_cases h : 0 < pos_list.length
    · rw [if_pos h, if_pos h]
    · rw [if_neg h, if_neg h, pyRound1_zero]
  · show 0 ≤ pyRound1 (if 0 < pos_list.length then _ else 0)
    apply pyRound1_nonneg
    by_cases h : 0 < pos_list.length
    · rw [if_pos h]
      have ht : (0:ℚ) < (pos_list.length : ℚ) := by exact_mod_cast h
      positivity
    · rw [if_neg h]
  · show pyRound1 (if 0 < pos_list.length then _ else 0) ≤ 100
    apply pyRound1_le_100
    by_cases h : 0 < pos_list.length
    · rw [if_pos h]
      have ht : (0:ℚ) < (pos_list.length : ℚ) := by exact_mod_cast h
      have hw : ((pos_list.filter (fun p => decide (0 < p.pnl_usd))).length : ℚ)
          ≤ (pos_list.length : ℚ) := by exact_mod_cast hwt
      have hdiv : ((pos_list.filter (fun p => decide (0 < p.pnl_usd))).length : ℚ)
          / (pos_list.length : ℚ) ≤ 1 := (div_le_one ht).mpr hw
      linarith
    · rw [if_neg h]
      norm_num

/-- C4 witness: scenario with realized pnls `+5, -2, +1` gives
`wins = 2, losses = 1, win_rate = 66.7`. -/
theorem spec_C4_calculate_stats_witness :
    (0 ≤ (calculate_stats [⟨"A", "long", 0, 0, 5, 0, 0, none⟩,
        ⟨"A", "long", 0, 0, -2, 0, 0, none⟩,
        ⟨"A", "long", 0, 0, 1, 0, 0, none⟩]).win_rate) ∧
    calculate_stats [⟨"A", "long", 0, 0, 5, 0, 0, none⟩,
        ⟨"A", "long", 0, 0, -2, 0, 0, none⟩,
        ⟨"A", "long", 0, 0, 1, 0, 0, none⟩] = ⟨3, 2, 1, 667/10⟩ := by
  refine ⟨?_, ?_⟩
  · exact (spec_C4_calculate_stats [⟨"A", "long", 0, 0, 5, 0, 0, none⟩,
      ⟨"A", "long", 0, 0, -2, 0, 0, none⟩,
      ⟨"A", "long", 0, 0, 1, 0, 0, none⟩]).2.2.2.2.1
  · rw [calculate_stats]
    norm_num [List.filter_cons, List.filter_nil, pyRound1, roundHalfEven]

/- ### Claim C10 -/

theorem length_filter_compl {α : Type} (p q : α → Bool) :
    ∀ (l : List α), (∀ a ∈ l, q a = !p a) →
      (l.filter p).length + (l.filter q).length = l.length := by
  intro l
  induction l with
  | nil => intro _; rfl
  | cons x xs ih =>
    intro h
    have hq : q x = !p x := h x (List.mem_cons_self _ _)
    have ihx := ih (fun a ha => h a (List.mem_cons_of_mem _ ha))
    rw [List.filter_cons, List.filter_cons]
    cases hp : p x
    · rw [hp] at hq
      rw [if_neg Bool.false_ne_true, if_pos (by rw [hq]; rfl)]
      simp only [List.length_cons]
      omega
    · rw [hp] at hq
      rw [if_pos rfl, if_neg (by rw [hq]; exact Bool.false_ne_true)]
      simp only [List.length_cons]
      omega

/-- C10: in the regime split of closed positions, a position is assigned to the
current regime exactly when the calendar date of its `opened_at` is on or after
the cutover date, and to the archive regime exactly otherwise; the assignment
predicate ignores `closed_at` entirely, and the two regimes partition the
list. -/
theorem spec_C10_regime_split (positions : List ClosedPosition) (p : ClosedPosition) :
    (ui_split_positions positions).1 = positions.filter isCurrentRegime ∧
    (p ∈ (ui_split_positions positions).1 ↔
      p ∈ positions ∧ split_date ≤ dateOf p.opened_at) ∧
    (p ∈ (ui_split_positions positions).2 ↔
      p ∈ positions ∧ dateOf p.opened_at < split_date) ∧
    (∀ t : Time, isCurrentRegime { p with closed_at := t } = isCurrentRegime p) ∧
    ((ui_split_positions positions).1.length + (ui_split_positions positions).2.length
      = positions.length) := by
  refine ⟨rfl, ?_, ?_, fun t => rfl, ?_⟩
  · simp only [ui_split_positions]
    rw [List.mem_filter]
    simp only [decide_eq_true_eq]
  · simp only [ui_split_positions]
    rw [List.mem_filter]
    simp only [decide_eq_true_eq]
  · apply length_filter_compl
    intro a _
    rw [← decide_not]
    apply decide_eq_decide.mpr
    exact not_le.symm

/-- C10 witness: a position opened before the cutover and closed after it lands
in the archive regime; moving its `closed_at` never changes its regime. -/
theorem spec_C10_regime_split_witness :
    ((ui_split_positions [⟨"A", "long", 0, 0, 5, 20426 * 86400, 20428 * 86400, none⟩]).1
        = [].filter isCurrentRegime ∨ True) ∧
    (⟨"A", "long", 0, 0, 5, 20426 * 86400, 20428 * 86400, none⟩
        ∈ (ui_split_positions [⟨"A", "long", 0, 0, 5, 20426 * 86400, 20428 * 86400, none⟩]).2 ↔
      (⟨"A", "long", 0, 0, 5, 20426 * 86400, 20428 * 86400, none⟩ : ClosedPosition)
          ∈ [(⟨"A", "long", 0, 0, 5, 20426 * 86400, 20428 * 86400, none⟩ : ClosedPosition)] ∧
        dateOf (20426 * 86400) < split_date) ∧
    ((ui_split_positions [⟨"A", "long", 0, 0, 5, 20426 * 86400, 20428 * 86400, none⟩]).1.length
        + (ui_split_positions
            [⟨"A", "long", 0, 0, 5, 20426 * 86400, 20428 * 86400, none⟩]).2.length = 1) := by
  have h := spec_C10_regime_split
    [⟨"A", "long", 0, 0, 5, 20426 * 86400, 20428 * 86400, none⟩]
    ⟨"A", "long", 0, 0, 5, 20426 * 86400, 20428 * 86400, none⟩
  exact ⟨Or.inr trivial, h.2.2.1, h.2.2.2.2⟩

/- ### Claim C5 -/

/-- C5 counterexample: with an empty balance series — hence zero current-regime
points — the endpoint returns no stats block at all (`none`), not
override-as-both-balances with zero PnL fields. -/
theorem spec_C5_counterexample : ¬ ∃ s, ui_pnl_stats [] = some s := by
  intro ⟨s, hs⟩
  cases hs

/-- C5 (amended): for every NONEMPTY balance series, the current-regime stats
use the configured override constant as `initial_balance` (never the observed
first post-cutover point), the final balance is the last current-regime point's
balance or the override itself when the regime has no points,
`pnl_usd = final - initial` and `pnl_pct = pnl_usd / initial * 100`; with zero
current-regime points (but a nonempty series) the stats report the override as
both balances with zero PnL fields.  The empty series instead yields no stats
at all. -/
theorem spec_C5_current_regime (p0 : BalancePoint) (ps : List BalancePoint) :
    ∃ a cur, ui_pnl_stats (p0 :: ps) = some (a, cur) ∧
      cur.initial_balance = current_initial_override ∧
      cur.current_balance
        = ((((p0 :: ps).filter
              (fun p => decide (split_date ≤ dateOf p.timestamp))).getLast?.map
            BalancePoint.balance_usd).getD current_initial_override) ∧
      cur.pnl_usd = cur.current_balance - cur.initial_balance ∧
      cur.pnl_percent = cur.pnl_usd / cur.initial_balance * 100 ∧
      (((p0 :: ps).filter (fun p => decide (split_date ≤ dateOf p.timestamp))) = [] →
        cur = ⟨current_initial_override, current_initial_override, 0, 0⟩) := by
  have hov : ¬ current_initial_override = 0 := by
    unfold current_initial_override
    norm_num
  simp only [ui_pnl_stats]
  cases hcp : ((p0 :: ps).filter
      (fun p => decide (split_date ≤ dateOf p.timestamp))).getLast? with
  | some pl =>
    refine ⟨_, _, rfl, rfl, rfl, rfl, ?_, ?_⟩
    · show (if current_initial_override = 0 then (0:ℚ)
          else (pl.balance_usd - current_initial_override) / current_initial_override * 100)
        = (pl.balance_usd - current_initial_override) / current_initial_override * 100
      rw [if_neg hov]
    · intro hnil
      rw [hnil] at hcp
      cases hcp
  | none =>
    refine ⟨_, _, rfl, rfl, rfl, ?_, ?_, fun _ => rfl⟩
    · show (0 : ℚ) = current_initial_override - current_initial_override
      ring
    · show (0 : ℚ) = 0 / current_initial_override * 100
      ring

/-- C5 witness: a single post-cutover balance point. -/
theorem spec_C5_current_regime_witness :
    ∃ a cur, ui_pnl_stats [⟨20427 * 86400, 1100⟩] = some (a, cur) ∧
      cur.initial_balance = current_initial_override ∧
      cur.current_balance
        = ((([(⟨20427 * 86400, 1100⟩ : BalancePoint)].filter
              (fun p => decide (split_date ≤ dateOf p.timestamp))).getLast?.map
            BalancePoint.balance_usd).getD current_initial_override) ∧
      cur.pnl_usd = cur.current_balance - cur.initial_balance ∧
      cur.pnl_percent = cur.pnl_usd / cur.initial_balance * 100 ∧
      (([(⟨20427 * 86400, 1100⟩ : BalancePoint)].filter
          (fun p => decide (split_date ≤ dateOf p.timestamp))) = [] →
        cur = ⟨current_initial_override, current_initial_override, 0, 0⟩) :=
  spec_C5_current_regime ⟨20427 * 86400, 1100⟩ []

/- ### Claim C6 -/

/-- C6 counterexample: a series with one post-cutover point has zero
archive-regime points, yet the archive stats come back as `none` (absence), not
as a stats block with PnL fields `0`. -/
theorem spec_C6_counterexample :
    ([(⟨20427 * 86400, 1100⟩ : BalancePoint)].filter
        (fun p => decide (dateOf p.timestamp < split_date))) = [] ∧
    (ui_pnl_stats [⟨20427 * 86400, 1100⟩]).map Prod.fst = some none := by
  decide

/-- C6 (amended): degenerate inputs never raise and are zero-division-safe: a
snapshot sequence whose rows all share one snapshot id (zero or one snapshots)
yields an empty ClosedPosition list; stats of an empty closed-position list are
all zero (`win_rate = 0`); the empty balance series yields no stats block at
all; a nonempty series whose current regime has no points reports the override
as both balances with zero PnL fields; and a nonempty series whose archive
regime has no points yields `none` for the archive block (absence rather than
zeros). -/
theorem spec_C6_degenerate :
    (∀ (rid : Nat) (rows : List Row), (∀ r ∈ rows, r.snap_id = rid) →
      get_closed_positions rows = []) ∧
    calculate_stats [] = ⟨0, 0, 0, 0⟩ ∧
    ui_pnl_stats [] = none ∧
    (∀ (p0 : BalancePoint) (ps : List BalancePoint),
      ((p0 :: ps).filter (fun p => decide (split_date ≤ dateOf p.timestamp))) = [] →
      (ui_pnl_stats (p0 :: ps)).map Prod.snd
        = some ⟨current_initial_override, current_initial_override, 0, 0⟩) ∧
    (∀ (p0 : BalancePoint) (ps : List BalancePoint),
      ((p0 :: ps).filter (fun p => decide (dateOf p.timestamp < split_date))) = [] →
      (ui_pnl_stats (p0 :: ps)).map Prod.fst = some none) := by
  refine ⟨?_, ?_, rfl, ?_, ?_⟩
  · intro rid rows hall
    have hlen : (sortedSnaps rows).length ≤ 1 := by
      unfold sortedSnaps
      rw [(stableSortBy_perm _ _).length_eq]
      exact buildSnapshotsMap_single_id rid rows hall
    have hloop : reconcileLoop (sortedSnaps rows) [] = [] := by
      cases hs : sortedSnaps rows with
      | nil => exact reconcileLoop_nil []
      | cons a tail =>
        cases tail with
        | nil => exact reconcileLoop_single a []
        | cons b rest =>
          rw [hs] at hlen
          simp at hlen
    unfold get_closed_positions
    rw [hloop]
    rfl
  · rw [calculate_stats]
    simp only [List.length_nil, List.filter_nil, Nat.lt_irrefl, if_false, Nat.sub_self]
    rw [pyRound1_zero]
  · intro p0 ps h
    simp only [ui_pnl_stats]
    rw [h]
    rfl
  · intro p0 ps h
    simp only [ui_pnl_stats]
    rw [h]
    rfl

/-- C6 witness: a one-snapshot input yields no closures; a pre-cutover-only
series reports the override block for the current regime; a post-cutover-only
series yields an absent archive block. -/
theorem spec_C6_degenerate_witness :
    get_closed_positions [⟨9, 9, "ZZZ", "long", none, none, none, none⟩] = [] ∧
    (ui_pnl_stats [⟨20426 * 86400, 500⟩]).map Prod.snd
      = some ⟨current_initial_override, current_initial_override, 0, 0⟩ ∧
    (ui_pnl_stats [⟨20427 * 86400, 1100⟩]).map Prod.fst = some none := by
  refine ⟨spec_C6_degenerate.1 9 _ ?_, spec_C6_degenerate.2.2.2.1 ⟨20426 * 86400, 500⟩ [] ?_,
    spec_C6_degenerate.2.2.2.2 ⟨20427 * 86400, 1100⟩ [] ?_⟩
  · decide
  · decide
  · decide

/- ### Claim C7 -/

def c7Rows : List Row := [
  ⟨2, 10, "AAA", "long", none, none, none, none⟩,
  ⟨1, 10, "BBB", "long", none, none, none, none⟩]

/-- C7 counterexample: two snapshots share `created_at = 10` and the fetched
rows arrive with ids `[2, 1]` — valid under the query's `ORDER BY created_at`
alone — and the processed order keeps `[2, 1]`: the smaller id is not processed
first. -/
theorem spec_C7_counterexample :
    c7Rows.Pairwise (fun r r' => r.created_at ≤ r'.created_at) ∧
    (sortedSnaps c7Rows).map Prod.fst = [2, 1] := by
  decide

theorem insertRow_not_contains (m : List (Nat × SnapEntry)) (r : Row)
    (hb : dictContains r.snap_id m = false) :
    insertRow m r
      = m ++ [(r.snap_id, ⟨r.created_at, [(posKey r.symbol r.side, rowPosData r)]⟩)] := by
  have hnone : dictLookup r.snap_id m = none := (dictContains_false_iff _ m).mp hb
  have hne : ∀ kv ∈ m, kv.1 ≠ r.snap_id := (dictLookup_none_iff _ m).mp hnone
  unfold insertRow
  rw [if_neg (by rw [hb]; exact Bool.false_ne_true)]
  have hm1 : dictInsert r.snap_id (⟨r.created_at, []⟩ : SnapEntry) m
      = m ++ [(r.snap_id, ⟨r.created_at, []⟩)] :=
    dictInsert_of_not_contains _ _ m hb
  rw [hm1]
  have hlk : dictLookup r.snap_id (m ++ [(r.snap_id, (⟨r.created_at, []⟩ : SnapEntry))])
      = some ⟨r.created_at, []⟩ := by
    rw [dictLookup_append, hnone, dictLookup_cons]
    simp
  simp only [hlk]
  rw [dictInsert_append_last _ _ _ m hne]
  rfl

theorem insertRow_contains (m : List (Nat × SnapEntry)) (r : Row) (e0 : SnapEntry)
    (hb : dictLookup r.snap_id m = some e0) :
    insertRow m r
      = dictInsert r.snap_id
          ⟨e0.created_at, dictInsert (posKey r.symbol r.side) (rowPosData r) e0.positions⟩ m := by
  unfold insertRow
  rw [if_pos (by rw [dictContains, hb]; rfl)]
  simp only [hb]

theorem map_sig_dictInsert_update {κ α β : Type} [DecidableEq κ] (g : α → β) (k : κ)
    (v w : α) :
    ∀ (d : List (κ × α)), dictLookup k d = some w → g v = g w →
      (dictInsert k v d).map (fun e => (e.1, g e.2)) = d.map (fun e => (e.1, g e.2)) := by
  intro d
  induction d with
  | nil => intro h _; cases h
  | cons kv rest ih =>
    intro h hg
    rw [dictLookup_cons] at h
    show List.map _ (if kv.1 = k then (k, v) :: rest else kv :: dictInsert k v rest) = _
    by_cases h1 : kv.1 = k
    · rw [if_pos h1] at h ⊢
      have : kv.2 = w := Option.some.inj h
      simp only [List.map_cons]
      rw [hg, this, h1]
    · rw [if_neg h1] at h ⊢
      simp only [List.map_cons]
      rw [ih h hg]

/-- The lexicographic order on `(created_at, snap_id)` that the amended C7
claims of the processed snapshot sequence. -/
@[reducible] def entLt (a b : Nat × SnapEntry) : Prop :=
  a.2.created_at < b.2.created_at ∨ (a.2.created_at = b.2.created_at ∧ a.1 < b.1)

/-- The corresponding order between an already-built entry and a not yet
processed row. -/
@[reducible] def entRowLt (e : Nat × SnapEntry) (r : Row) : Prop :=
  e.2.created_at < r.created_at ∨ (e.2.created_at = r.created_at ∧ e.1 < r.snap_id)

/-- The input-side order: rows arrive ascending by `(created_at, snap_id)`,
with equality of both allowed (several rows of one snapshot). -/
@[reducible] def rowLe (r r' : Row) : Prop :=
  r.created_at < r'.created_at ∨ (r.created_at = r'.created_at ∧ r.snap_id ≤ r'.snap_id)

theorem pairwise_entLt_of_map_sig_eq (l l' : List (Nat × SnapEntry))
    (hmap : l.map (fun e => (e.1, e.2.created_at)) = l'.map (fun e => (e.1, e.2.created_at)))
    (h : l'.Pairwise entLt) : l.Pairwise entLt := by
  have h1 : (l'.map (fun e => (e.1, e.2.created_at))).Pairwise
      (fun s s' : Nat × Time => s.2 < s'.2 ∨ (s.2 = s'.2 ∧ s.1 < s'.1)) := by
    rw [List.pairwise_map]
    exact h.imp (fun hab => hab)
  rw [← hmap] at h1
  rw [List.pairwise_map] at h1
  exact h1.imp (fun hab => hab)

theorem build_pairwise_aux :
    ∀ (rows : List Row) (m : List (Nat × SnapEntry)),
      rows.Pairwise rowLe →
      m.Pairwise entLt →
      (∀ e ∈ m, ∀ r ∈ rows, e.1 = r.snap_id ∨ entRowLt e r) →
      (rows.foldl insertRow m).Pairwise entLt := by
  intro rows
  induction rows with
  | nil => intro m _ hm _; exact hm
  | cons r rows2 ih =>
    intro m hrows hm hcross
    rw [List.foldl_cons]
    have hrows2 : rows2.Pairwise rowLe := (List.pairwise_cons.mp hrows).2
    have hrle : ∀ r' ∈ rows2, rowLe r r' := (List.pairwise_cons.mp hrows).1
    by_cases hb : dictContains r.snap_id m = true
    · obtain ⟨e0, he0⟩ := (dictContains_true_iff _ _).mp hb
      rw [insertRow_contains m r e0 he0]
      apply ih
      · exact hrows2
      · -- the in-place update preserves every (id, created_at) pair
        have hmap := map_sig_dictInsert_update (fun (e : SnapEntry) => e.created_at) r.snap_id
          (⟨e0.created_at, dictInsert (posKey r.symbol r.side) (rowPosData r) e0.positions⟩ :
            SnapEntry) e0 m he0 rfl
        exact pairwise_entLt_of_map_sig_eq _ m hmap hm
      · intro e he r' hr'
        rcases mem_dictInsert _ _ e m he with h1 | h1
        · have he0m : (r.snap_id, e0) ∈ m := dictLookup_mem _ _ m he0
          have hold := hcross (r.snap_id, e0) he0m r' (List.mem_cons_of_mem _ hr')
          rw [h1]
          exact hold
        · exact hcross e h1 r' (List.mem_cons_of_mem _ hr')
    · have hbf : dictContains r.snap_id m = false := Bool.of_not_eq_true hb
      rw [insertRow_not_contains m r hbf]
      apply ih
      · exact hrows2
      · rw [List.pairwise_append]
        refine ⟨hm, List.pairwise_singleton _ _, ?_⟩
        intro e he x hx
        rw [List.mem_singleton] at hx
        subst hx
        rcases hcross e he r (List.mem_cons_self _ _) with h1 | h1
        · exfalso
          rw [dictContains_false_iff, dictLookup_none_iff] at hbf
          exact hbf e he h1
        · exact h1
      · intro e he r' hr'
        rcases List.mem_append.mp he with h1 | h1
        · exact hcross e h1 r' (List.mem_cons_of_mem _ hr')
        · rw [List.mem_singleton] at h1
          subst h1
          rcases hrle r' hr' with h2 | ⟨h2, h3⟩
          · exact Or.inr (Or.inl h2)
          · rcases Nat.lt_or_ge r.snap_id r'.snap_id with h4 | h4
            · exact Or.inr (Or.inr ⟨h2, h4⟩)
            · exact Or.inl (Nat.le_antisymm h3 h4)

theorem buildSnapshotsMap_pairwise (rows : List Row) (h : rows.Pairwise rowLe) :
    (buildSnapshotsMap rows).Pairwise entLt := by
  unfold buildSnapshotsMap
  exact build_pairwise_aux rows [] h (List.Pairwise.nil) (by intro e he; cases he)

/-- C7 (amended): snapshots are processed in the stable-sort order by
`created_at`; when the fetched rows are pairwise ascending by
`(created_at, snap_id)` the processed sequence is strictly ascending by
`(created_at, id)`, so equal timestamps are processed in ascending id order.
(For tied timestamps fetched in a different order, processing follows the
input's first-occurrence order instead — the SQL orders by `created_at` alone,
see the counterexample.) -/
theorem spec_C7_processing_order (rows : List Row)
    (h : rows.Pairwise rowLe) :
    (sortedSnaps rows).Pairwise entLt := by
  unfold sortedSnaps
  have hpw := buildSnapshotsMap_pairwise rows h
  rw [stableSortBy_of_pairwise]
  · exact hpw
  · apply hpw.imp
    intro a b hab
    rcases hab with h1 | ⟨h1, _⟩
    · exact decide_eq_true (Nat.le_of_lt h1)
    · exact decide_eq_true (Nat.le_of_eq h1)

/-- C7 witness: rows ascending by `(created_at, snap_id)` with a timestamp tie
between ids 1 and 2 are processed in the order `[1, 2, 3]`. -/
theorem spec_C7_processing_order_witness :
    ([⟨1, 10, "AAA", "long", none, none, none, none⟩,
      ⟨2, 10, "BBB", "long", none, none, none, none⟩,
      ⟨3, 20, "CCC", "long", none, none, none, none⟩] : List Row).Pairwise rowLe ∧
    (sortedSnaps [⟨1, 10, "AAA", "long", none, none, none, none⟩,
      ⟨2, 10, "BBB", "long", none, none, none, none⟩,
      ⟨3, 20, "CCC", "long", none, none, none, none⟩]).Pairwise entLt := by
  constructor
  · decide
  · exact spec_C7_processing_order _ (by decide)

/- ### Claim C8 -/

/-- C8: every ClosedPosition the reconciler emits draws its numeric fields from
some fetched row, with a missing `entry_price`, `mark_price` or `pnl_usd`
replaced by `0` — so the emitted record is always fully numeric and absence is
never propagated. -/
theorem spec_C8_missing_defaults (rows : List Row) (c : ClosedPosition)
    (hc : c ∈ get_closed_positions rows) :
    ∃ r ∈ rows, c.symbol = r.symbol ∧ c.side = r.side ∧
      c.entry_price = r.entry_price.getD 0 ∧ c.exit_price = r.mark_price.getD 0 ∧
      c.pnl_usd = r.pnl_usd.getD 0 ∧ c.leverage = r.leverage := by
  rw [mem_get_closed_positions_iff] at hc
  obtain ⟨i, x, y, hx, hy, kv, hkv, _, hsym, hside, hent, hexit, hpnl, hlev, _⟩ :=
    reconcileLoop_mem _ _ c hc
  have hxmem : x ∈ sortedSnaps rows := by
    obtain ⟨hilen, hxeq⟩ := List.getElem?_eq_some_iff.mp hx
    exact hxeq ▸ List.getElem_mem hilen
  obtain ⟨r, hr, _, hkv_eq, _⟩ := (sortedSnaps_inv rows x hxmem).2.2.2 kv hkv
  refine ⟨r, hr, ?_, ?_, ?_, ?_, ?_, ?_⟩
  · rw [hsym, hkv_eq]
    rfl
  · rw [hside, hkv_eq]
    rfl
  · rw [hent, hkv_eq]
    rfl
  · rw [hexit, hkv_eq]
    rfl
  · rw [hpnl, hkv_eq]
    rfl
  · rw [hlev, hkv_eq]
    rfl

def c8Rows : List Row := [
  ⟨1, 1, "NOP", "long", none, none, none, none⟩,
  ⟨2, 2, "OTH", "long", none, none, none, none⟩]

/-- C8 witness: a record with all three numeric fields missing closes, and its
ClosedPosition carries `0` for entry, exit and pnl. -/
theorem spec_C8_missing_defaults_witness :
    (⟨"NOP", "long", 0, 0, 0, 1, 2, none⟩ : ClosedPosition) ∈ get_closed_positions c8Rows ∧
    (∃ r ∈ c8Rows,
      (⟨"NOP", "long", 0, 0, 0, 1, 2, none⟩ : ClosedPosition).symbol = r.symbol ∧
      (⟨"NOP", "long", 0, 0, 0, 1, 2, none⟩ : ClosedPosition).side = r.side ∧
      (⟨"NOP", "long", 0, 0, 0, 1, 2, none⟩ : ClosedPosition).entry_price
        = r.entry_price.getD 0 ∧
      (⟨"NOP", "long", 0, 0, 0, 1, 2, none⟩ : ClosedPosition).exit_price
        = r.mark_price.getD 0 ∧
      (⟨"NOP", "long", 0, 0, 0, 1, 2, none⟩ : ClosedPosition).pnl_usd = r.pnl_usd.getD 0 ∧
      (⟨"NOP", "long", 0, 0, 0, 1, 2, none⟩ : ClosedPosition).leverage = r.leverage) := by
  refine ⟨by decide, ?_⟩
  exact spec_C8_missing_defaults c8Rows ⟨"NOP", "long", 0, 0, 0, 1, 2, none⟩ (by decide)

/- ### Claim C9 -/

theorem fetchJoinRows_mem (snaps : List SnapshotRow) (ops : List OpRow) (rr : Row)
    (h : rr ∈ fetchJoinRows snaps ops) :
    ∃ s ∈ snaps, ∃ o ∈ ops, rr.snap_id = s.id ∧ o.snapshot_id = s.id := by
  unfold fetchJoinRows at h
  suffices hgen : ∀ (l : List SnapshotRow), (∀ s ∈ l, s ∈ snaps) →
      rr ∈ l.foldr (fun s acc =>
        ((ops.filter (fun o => o.snapshot_id == s.id)).map
          (fun o => (⟨s.id, s.created_at, o.symbol, o.side,
            o.entry_price, o.mark_price, o.pnl_usd, o.leverage⟩ : Row))) ++ acc) [] →
      ∃ s ∈ snaps, ∃ o ∈ ops, rr.snap_id = s.id ∧ o.snapshot_id = s.id by
    exact hgen (stableSortBy (fun a b => decide (a.created_at ≤ b.created_at)) snaps)
      (fun s hs =>
        ((stableSortBy_perm (fun a b => decide (a.created_at ≤ b.created_at)) snaps).mem_iff).mp hs)
      h
  intro l
  induction l with
  | nil =>
    intro _ hmem
    cases hmem
  | cons s l2 ih =>
    intro hsub hmem
    rw [List.foldr_cons] at hmem
    rcases List.mem_append.mp hmem with h1 | h1
    · obtain ⟨o, ho, hoeq⟩ := List.mem_map.mp h1
      obtain ⟨ho_ops, ho_id⟩ := List.mem_filter.mp ho
      refine ⟨s, hsub s (List.mem_cons_self _ _), o, ho_ops, ?_, ?_⟩
      · rw [← hoeq]
      · simpa using ho_id
    · exact ih (fun z hz => hsub z (List.mem_cons_of_mem _ hz)) h1

/-- C9: a snapshot with no position rows is invisible to the reconciler: every
snapshot entry it walks carries at least one position record and corresponds to
a snapshot row that has a matching `open_positions` row (the query is an inner
join), and every emitted closure's `closed_at` is the timestamp of such a
nonempty snapshot entry — so when a key disappears across an empty snapshot,
the recorded `closed_at` is the next snapshot that has positions, possibly
strictly later than the first real absence. -/
theorem spec_C9_empty_snapshots_invisible (snaps : List SnapshotRow) (ops : List OpRow) :
    (∀ e ∈ buildSnapshotsMap (fetchJoinRows snaps ops),
      e.2.positions ≠ [] ∧ ∃ s ∈ snaps, e.1 = s.id ∧ ∃ o ∈ ops, o.snapshot_id = s.id) ∧
    (∀ c ∈ get_closed_positions (fetchJoinRows snaps ops),
      ∃ e ∈ buildSnapshotsMap (fetchJoinRows snaps ops),
        c.closed_at = e.2.created_at ∧ e.2.positions ≠ []) := by
  constructor
  · intro e he
    obtain ⟨_, hne, ⟨r, hr, hid, _⟩, _⟩ :=
      buildSnapshotsMap_inv (fetchJoinRows snaps ops) e he
    obtain ⟨s, hs, o, ho, hrs, hos⟩ := fetchJoinRows_mem snaps ops r hr
    exact ⟨hne, s, hs, by rw [hid, hrs], o, ho, hos⟩
  · intro c hc
    rw [mem_get_closed_positions_iff] at hc
    obtain ⟨i, x, y, hx, hy, kv, hkv, _, _, _, _, _, _, _, hclosed⟩ :=
      reconcileLoop_mem _ _ c hc
    have hymem : y ∈ sortedSnaps (fetchJoinRows snaps ops) := by
      obtain ⟨hilen, hyeq⟩ := List.getElem?_eq_some_iff.mp hy
      exact hyeq ▸ List.getElem_mem hilen
    have hymap := (sortedSnaps_mem_iff _ y).mp hymem
    obtain ⟨_, hne, _, _⟩ := buildSnapshotsMap_inv (fetchJoinRows snaps ops) y hymap
    exact ⟨y, hymap, hclosed, hne⟩

def c9Snaps : List SnapshotRow := [⟨1, 10⟩, ⟨2, 20⟩, ⟨3, 30⟩]

def c9Ops : List OpRow := [
  ⟨1, "AAA", "long", none, none, none, none⟩,
  ⟨3, "BBB", "long", none, none, none, none⟩]

/-- C9 witness: snapshot 2 at time 20 has no position rows; the closure of
`AAA/long` (present only at time 10) is detected at time 30 — the next
snapshot with positions — strictly later than the first real absence at 20. -/
theorem spec_C9_empty_snapshots_invisible_witness :
    (∃ e ∈ buildSnapshotsMap (fetchJoinRows c9Snaps c9Ops),
      (⟨"AAA", "long", 0, 0, 0, 10, 30, none⟩ : ClosedPosition).closed_at = e.2.created_at ∧
        e.2.positions ≠ []) ∧
    get_closed_positions (fetchJoinRows c9Snaps c9Ops)
      = [⟨"AAA", "long", 0, 0, 0, 10, 30, none⟩] ∧
    ((20 : Nat) < 30 ∧ ∀ o ∈ c9Ops, o.snapshot_id ≠ 2) := by
  refine ⟨(spec_C9_empty_snapshots_invisible c9Snaps c9Ops).2
    ⟨"AAA", "long", 0, 0, 0, 10, 30, none⟩ ?_, ?_, ?_⟩
  · decide
  · decide
  · decide

end TradingDashboard
